import Mathlib

/-!
Verification of the dialect registry and resource-collection component of the
`boon` JSON Schema library (`src/draft.rs`).

The JSON data model, the dialect tables, `from_url`, `has_anchor` and
`collect_resources` are shallowly embedded from `src/draft.rs`.  The helper
functions of the repository's `util.rs` and the `Resource` type of `root.rs`
are not part of the provided sources and are modelled from the specification
(each carries a doc comment saying so), as is the RFC-3986 reference
resolution supplied by the external `url` crate.
-/

set_option autoImplicit false

/-- JSON values as parsed by serde_json; objects are association lists in
document order, numbers carry an irrelevant integer payload. -/
inductive JsonValue where
  | null
  | bool (b : Bool)
  | num (n : Int)
  | str (s : String)
  | arr (items : List JsonValue)
  | obj (fields : List (String × JsonValue))

/-- First-match association-list lookup (serde_json `Map::get`; keys are
unique in parsed documents). -/
def assocLookup {α : Type} : List (String × α) → String → Option α
  | [], _ => none
  | (k, v) :: rest, key => if k = key then some v else assocLookup rest key

/-- Rust `str::strip_prefix`, by character lists (kernel-reducible). -/
def stripPre (pre s : String) : Option String :=
  if s.toList.take pre.toList.length = pre.toList then
    some (String.mk (s.toList.drop pre.toList.length))
  else none

/-- Whether a string starts with `/`. -/
def startsSlash (s : String) : Bool :=
  match s.toList with
  | '/' :: _ => true
  | _ => false

/-- Modelled from the spec: split a reference into (pre-fragment, fragment)
at the first `#`; the fragment excludes the `#` and is empty when there is
none (`util::split`). -/
def splitRef (s : String) : String × String :=
  let l := s.toList
  (String.mk (l.takeWhile (fun c => !(c == '#'))),
   String.mk ((l.dropWhile (fun c => !(c == '#'))).drop 1))

/-- Modelled from the spec: JSON-Pointer escaping of a token, `~` becomes
`~0` and `/` becomes `~1` (`util::escape`). -/
def escape (s : String) : String :=
  String.mk (s.toList.flatMap fun c =>
    if c = '~' then ['~', '0'] else if c = '/' then ['~', '1'] else [c])

/-- Value of a hexadecimal digit character. -/
def hexVal (c : Char) : Option Nat :=
  if '0' ≤ c ∧ c ≤ '9' then some (c.toNat - 48)
  else if 'a' ≤ c ∧ c ≤ 'f' then some (c.toNat - 87)
  else if 'A' ≤ c ∧ c ≤ 'F' then some (c.toNat - 55)
  else none

/-- UTF-8 encoding of a single character, as a byte list. -/
def charUtf8 (c : Char) : List Nat :=
  let n := c.toNat
  if n < 0x80 then [n]
  else if n < 0x800 then [0xC0 + n / 0x40, 0x80 + n % 0x40]
  else if n < 0x10000 then
    [0xE0 + n / 0x1000, 0x80 + (n / 0x40) % 0x40, 0x80 + n % 0x40]
  else
    [0xF0 + n / 0x40000, 0x80 + (n / 0x1000) % 0x40, 0x80 + (n / 0x40) % 0x40,
     0x80 + n % 0x40]

/-- Modelled from the spec: percent-decoding to a byte sequence; a `%`
followed by two hex digits yields that byte, any other character passes
through as its UTF-8 bytes (the `percent-encoding` crate's behaviour). -/
def pctDecodeBytes : List Char → List Nat
  | [] => []
  | '%' :: a :: b :: rest =>
    match hexVal a, hexVal b with
    | some x, some y => (16 * x + y) :: pctDecodeBytes rest
    | _, _ => charUtf8 '%' ++ pctDecodeBytes (a :: b :: rest)
  | c :: rest => charUtf8 c ++ pctDecodeBytes rest

/-- Strict UTF-8 decoding of a byte sequence (Rust `str::from_utf8`
semantics: no overlong forms, no surrogates, `none` on any invalid byte). -/
def utf8DecodeChars : List Nat → Option (List Char)
  | [] => some []
  | b :: rest =>
    if b ≤ 0x7F then (utf8DecodeChars rest).map (Char.ofNat b :: ·)
    else if 0xC2 ≤ b ∧ b ≤ 0xDF then
      match rest with
      | b1 :: rest1 =>
        if 0x80 ≤ b1 ∧ b1 ≤ 0xBF then
          (utf8DecodeChars rest1).map (Char.ofNat ((b - 0xC0) * 0x40 + (b1 - 0x80)) :: ·)
        else none
      | [] => none
    else if 0xE0 ≤ b ∧ b ≤ 0xEF then
      match rest with
      | b1 :: b2 :: rest2 =>
        let lo1 := if b = 0xE0 then 0xA0 else 0x80
        let hi1 := if b = 0xED then 0x9F else 0xBF
        if lo1 ≤ b1 ∧ b1 ≤ hi1 ∧ 0x80 ≤ b2 ∧ b2 ≤ 0xBF then
          (utf8DecodeChars rest2).map
            (Char.ofNat ((b - 0xE0) * 0x1000 + (b1 - 0x80) * 0x40 + (b2 - 0x80)) :: ·)
        else none
      | _ => none
    else if 0xF0 ≤ b ∧ b ≤ 0xF4 then
      match rest with
      | b1 :: b2 :: b3 :: rest3 =>
        let lo1 := if b = 0xF0 then 0x90 else 0x80
        let hi1 := if b = 0xF4 then 0x8F else 0xBF
        if lo1 ≤ b1 ∧ b1 ≤ hi1 ∧ 0x80 ≤ b2 ∧ b2 ≤ 0xBF ∧ 0x80 ≤ b3 ∧ b3 ≤ 0xBF then
          (utf8DecodeChars rest3).map
            (Char.ofNat ((b - 0xF0) * 0x40000 + (b1 - 0x80) * 0x1000 +
              (b2 - 0x80) * 0x40 + (b3 - 0x80)) :: ·)
        else none
      | _ => none
    else none

/-- Modelled from the spec: percent-decode a path with UTF-8 validation
(`util::path_unescape`); `none` models the `Utf8Error` case. -/
def path_unescape (s : String) : Option String :=
  (utf8DecodeChars (pctDecodeBytes s.toList)).map String.mk

/-- Modelled from the spec: convert a raw identifier fragment to its logical
anchor name by percent-decoding with UTF-8 validation, surfacing a decoding
failure; an empty fragment or a JSON-Pointer fragment (starting with `/`)
names no anchor (`util::fragment_to_anchor`). -/
def fragment_to_anchor (fragment : String) : Except Unit (Option String) :=
  if fragment = "" ∨ startsSlash fragment then Except.ok none
  else
    match utf8DecodeChars (pctDecodeBytes fragment.toList) with
    | some cs => Except.ok (some (String.mk cs))
    | none => Except.error ()

/-- Decimal rendering of a natural number (no leading zeros), fuelled to stay
structurally recursive. -/
def natToDecAux : Nat → Nat → List Char
  | 0, _ => []
  | _ + 1, 0 => []
  | fuel + 1, n + 1 =>
    natToDecAux fuel ((n + 1) / 10) ++ [Char.ofNat (48 + (n + 1) % 10)]

/-- Decimal rendering of a natural number, as Rust `format!("{i}")`. -/
def natToDec (n : Nat) : String :=
  if n = 0 then "0" else String.mk (natToDecAux (n + 1) n)

/-- Modelled from the spec: a parsed absolute URL as held by the external
`url` crate.  References handed to `urlJoin` are pre-fragment parts, so no
fragment component is needed. -/
structure Url where
  scheme : String
  authority : Option String
  path : String
  query : Option String
deriving DecidableEq

/-- Serialization of a `Url`, as the `url` crate's `as_str`. -/
def Url.toStr (u : Url) : String :=
  u.scheme ++ ":" ++
  (match u.authority with
   | some a => "//" ++ a
   | none => "") ++
  u.path ++
  (match u.query with
   | some q => "?" ++ q
   | none => "")

/-- Components of a parsed URI reference (RFC 3986 appendix B). -/
structure RefParts where
  scheme : Option String
  authority : Option String
  path : String
  query : Option String

/-- Scheme characters after the first (RFC 3986 section 3.1). -/
def isSchemeChar (c : Char) : Bool :=
  c.isAlphanum || c == '+' || c == '-' || c == '.'

/-- Parse a leading `scheme:`; the scheme must start with a letter. -/
def parseScheme (l : List Char) : Option (List Char × List Char) :=
  match l.span isSchemeChar with
  | (pre, rest) =>
    match rest, pre with
    | ':' :: tail, c :: _ => if c.isAlpha then some (pre, tail) else none
    | _, _ => none

/-- Parse an optional query from the remainder of a reference. -/
def matchQuery : List Char → Option String
  | '?' :: t => some (String.mk t)
  | _ => none

/-- Modelled from the spec: parse a (fragment-free) URI reference into its
components, per RFC 3986 appendix B. -/
def parseRef (s : String) : RefParts :=
  let l := s.toList
  let (schemeOpt, r1) :=
    match parseScheme l with
    | some (sc, rest) => (some (String.mk sc), rest)
    | none => ((none : Option String), l)
  match r1 with
  | '/' :: '/' :: r2 =>
    let auth := r2.takeWhile fun c => !(c == '/') && !(c == '?')
    let r3 := r2.dropWhile fun c => !(c == '/') && !(c == '?')
    { scheme := schemeOpt, authority := some (String.mk auth),
      path := String.mk (r3.takeWhile fun c => !(c == '?')),
      query := matchQuery (r3.dropWhile fun c => !(c == '?')) }
  | _ =>
    { scheme := schemeOpt, authority := none,
      path := String.mk (r1.takeWhile fun c => !(c == '?')),
      query := matchQuery (r1.dropWhile fun c => !(c == '?')) }

/-- Remove the last segment and its preceding `/` (if any) from an output
buffer (RFC 3986 section 5.2.4 step 2C). -/
def popSeg (out : List Char) : List Char :=
  (((out.reverse.dropWhile fun c => !(c == '/')).drop 1)).reverse

/-- The RFC 3986 section 5.2.4 remove-dot-segments loop; each step consumes
at least one input character, so fuel `input.length + 1` suffices. -/
def rdsAux : Nat → List Char → List Char → List Char
  | 0, _, out => out
  | _ + 1, [], out => out
  | fuel + 1, input, out =>
    match input with
    | [] => out
    | '.' :: '.' :: '/' :: rest => rdsAux fuel rest out
    | '.' :: '/' :: rest => rdsAux fuel rest out
    | '/' :: '.' :: '.' :: '/' :: rest => rdsAux fuel ('/' :: rest) (popSeg out)
    | ['/', '.', '.'] => rdsAux fuel ['/'] (popSeg out)
    | '/' :: '.' :: '/' :: rest => rdsAux fuel ('/' :: rest) out
    | ['/', '.'] => rdsAux fuel ['/'] out
    | ['.'] => out
    | ['.', '.'] => out
    | '/' :: rest =>
      rdsAux fuel (rest.dropWhile fun c => !(c == '/'))
        (out ++ '/' :: rest.takeWhile fun c => !(c == '/'))
    | c :: rest =>
      rdsAux fuel ((c :: rest).dropWhile fun c => !(c == '/'))
        (out ++ (c :: rest).takeWhile fun c => !(c == '/'))

/-- RFC 3986 section 5.2.4 `remove_dot_segments`. -/
def removeDotSegments (p : String) : String :=
  String.mk (rdsAux (p.length + 1) p.toList [])

/-- Merge a relative path with the base path (RFC 3986 section 5.2.3). -/
def mergePaths (base : Url) (refPath : String) : String :=
  if base.authority.isSome ∧ base.path = "" then "/" ++ refPath
  else
    String.mk ((base.path.toList.reverse.dropWhile fun c => !(c == '/')).reverse)
      ++ refPath

/-- The `url` crate treats `http` and `https` as special schemes that must
have a non-empty host. -/
def specialScheme (s : String) : Bool :=
  s == "http" || s == "https"

/-- Modelled from the spec: RFC 3986 section 5.2 reference resolution as
performed by the external `url` crate's `Url::join`; resolution fails
(`none`) when the target is an `http`/`https` URL without a host, and an
empty path of a special-scheme URL normalizes to `/`. -/
def urlJoin (base : Url) (ref : String) : Option Url :=
  let r := parseRef ref
  let t : Url :=
    match r.scheme with
    | some sc =>
      { scheme := sc, authority := r.authority,
        path := removeDotSegments r.path, query := r.query }
    | none =>
      match r.authority with
      | some a =>
        { scheme := base.scheme, authority := some a,
          path := removeDotSegments r.path, query := r.query }
      | none =>
        if r.path = "" then
          { scheme := base.scheme, authority := base.authority, path := base.path,
            query := match r.query with
              | some q => some q
              | none => base.query }
        else if startsSlash r.path then
          { scheme := base.scheme, authority := base.authority,
            path := removeDotSegments r.path, query := r.query }
        else
          { scheme := base.scheme, authority := base.authority,
            path := removeDotSegments (mergePaths base r.path), query := r.query }
  if specialScheme t.scheme ∧ (t.authority = none ∨ t.authority = some "") then none
  else if specialScheme t.scheme ∧ t.path = "" then some { t with path := "/" }
  else some t

/-- Modelled from the spec: a `Resource` (`root.rs`) carries the canonical,
fragment-free identity URI of a scope; further fields belong to the external
registry collaborator and are omitted. -/
structure Resource where
  id : Url
deriving DecidableEq

/-- Keyword position flag: the keyword's value is itself a schema. -/
def POS_SELF : Nat := 1
/-- Keyword position flag: each property value of the keyword's object value
is a schema. -/
def POS_PROP : Nat := 2
/-- Keyword position flag: each element of the keyword's array value is a
schema. -/
def POS_ITEM : Nat := 4

/-- A dialect of the JSON Schema specification (`struct Draft`); the
`subschemas` table is kept as a list in the source's insertion order, which
determinizes the `HashMap` iteration of `collect_resources`. -/
structure Draft where
  version : Nat
  id : String
  bool_schema : Bool
  subschemas : List (String × Nat)
deriving DecidableEq

/-- The draft-04 dialect (`DRAFT4`). -/
def draft4 : Draft :=
  { version := 4, id := "id", bool_schema := false,
    subschemas := [
      ("definitions", POS_PROP),
      ("not", POS_SELF),
      ("allOf", POS_ITEM),
      ("anyOf", POS_ITEM),
      ("oneOf", POS_ITEM),
      ("properties", POS_PROP),
      ("additionalProperties", POS_SELF),
      ("patternProperties", POS_PROP),
      ("items", POS_SELF ||| POS_ITEM),
      ("additionalItems", POS_SELF),
      ("dependencies", POS_PROP)] }

/-- The draft-06 dialect (`DRAFT6`): draft-04's table extended. -/
def draft6 : Draft :=
  { version := 6, id := "$id", bool_schema := true,
    subschemas := draft4.subschemas ++
      [("propertyNames", POS_SELF), ("contains", POS_SELF)] }

/-- The draft-07 dialect (`DRAFT7`): draft-06's table extended. -/
def draft7 : Draft :=
  { version := 7, id := "$id", bool_schema := true,
    subschemas := draft6.subschemas ++
      [("if", POS_SELF), ("then", POS_SELF), ("else", POS_SELF)] }

/-- The 2019-09 dialect (`DRAFT2019`): draft-07's table extended. -/
def draft2019 : Draft :=
  { version := 2019, id := "$id", bool_schema := true,
    subschemas := draft7.subschemas ++
      [("$defs", POS_PROP), ("dependentSchemas", POS_PROP),
       ("unevaluatedProperties", POS_SELF), ("unevaluatedItems", POS_SELF)] }

/-- The 2020-12 dialect (`DRAFT2020`): 2019-09's table extended. -/
def draft2020 : Draft :=
  { version := 2020, id := "$id", bool_schema := true,
    subschemas := draft2019.subschemas ++ [("prefixItems", POS_ITEM)] }

/-- `latest()` returns the highest-ordinal dialect. -/
def latest : Draft := draft2020

/-- All five dialect instances of the registry. -/
def allDrafts : List Draft := [draft4, draft6, draft7, draft2019, draft2020]

/-- Strip a leading `http://`, then additionally a leading `https://`, as the
two sequential `strip_prefix` calls of `Draft::from_url` do. -/
def stripSchemes (url : String) : String :=
  let u1 := match stripPre "http://" url with
    | some t => t
    | none => url
  match stripPre "https://" u1 with
  | some t => t
  | none => u1

/-- The final six-way match of `Draft::from_url`. -/
def matchDialect (u : String) : Option Draft :=
  if u = "json-schema.org/schema" then some latest
  else if u = "json-schema.org/draft/2020-12/schema" then some draft2020
  else if u = "json-schema.org/draft/2019-09/schema" then some draft2019
  else if u = "json-schema.org/draft-07/schema" then some draft7
  else if u = "json-schema.org/draft-06/schema" then some draft6
  else if u = "json-schema.org/draft-04/schema" then some draft4
  else none

/-- `Draft::from_url`: reject a non-empty fragment, strip schemes (from the
original string, which still contains any trailing `#`), percent-decode and
match against the six canonical strings. -/
def from_url (url : String) : Option Draft :=
  if (splitRef url).2 ≠ "" then none
  else
    match path_unescape (stripSchemes url) with
    | none => none
    | some u => matchDialect u

/-- String match of an anchor keyword against a requested anchor name: true
when the keyword is present with a string value equal to the name (the two
`if let Some(Value::String(s)) = obj.get(..)` blocks of `has_anchor`). -/
def anchorKwMatches (obj : List (String × JsonValue)) (kw anchor : String) : Bool :=
  match assocLookup obj kw with
  | some (JsonValue.str s) => s == anchor
  | _ => false

/-- The tail of `Draft::has_anchor`: the two `version >= 2019` checks on
`$anchor` and `$dynamicAnchor`, then `Ok(false)`. -/
def has_anchor_tail (d : Draft) (obj : List (String × JsonValue)) (anchor : String) :
    Except Unit Bool :=
  if 2019 ≤ d.version ∧ anchorKwMatches obj "$anchor" anchor then Except.ok true
  else if 2019 ≤ d.version ∧ anchorKwMatches obj "$dynamicAnchor" anchor then
    Except.ok true
  else Except.ok false

/-- `Draft::has_anchor`: pre-2019 dialects read the anchor from the
identifier keyword's fragment (returning early when the identifier is a
string), later dialects use the explicit anchor keywords. -/
def has_anchor (d : Draft) (json : JsonValue) (anchor : String) : Except Unit Bool :=
  match json with
  | JsonValue.obj obj =>
    if d.version < 2019 then
      match assocLookup obj d.id with
      | some (JsonValue.str id) =>
        match fragment_to_anchor (splitRef id).2 with
        | Except.error e => Except.error e
        | Except.ok none => Except.ok false
        | Except.ok (some got) => Except.ok (got == anchor)
      | _ => has_anchor_tail d obj anchor
    else has_anchor_tail d obj anchor
  | _ => Except.ok false

/-- The resource map threaded through `collect_resources`, modelled as the
sequence of insertions (a `HashMap::insert` appends a binding; lookup takes
the last binding for a key). -/
abbrev ResList := List (String × Resource)

/-- Result of one `collect_resources` call: `none` is fuel exhaustion (never
reached with sufficient fuel); otherwise the final map together with
`some ptr` for `Err(ptr)` or `none` for `Ok(())`. -/
abbrev CollectRes := Option (ResList × Option String)

/-- `resources.insert(ptr, r)` in the insertion-sequence model. -/
def insertRes (res : ResList) (k : String) (r : Resource) : ResList :=
  res ++ [(k, r)]

/-- Sequencing of two collection stages: a fuel-out or `Err` short-circuits,
a success feeds the accumulated map onward (the `?` operator). -/
def resSeq (r : CollectRes) (f : ResList → CollectRes) : CollectRes :=
  match r with
  | none => none
  | some (res, some e) => some (res, some e)
  | some (res, none) => f res

/-- The `POS_ITEM` loop of `collect_resources`: recurse into each array
element with pointer `{ptr}/{kw}/{i}`. -/
def loopItems (rec : JsonValue → String → ResList → CollectRes) :
    List JsonValue → Nat → String → ResList → CollectRes
  | [], _, _, res => some (res, none)
  | v :: rest, i, pk, res =>
    resSeq (rec v (pk ++ "/" ++ natToDec i) res) (loopItems rec rest (i + 1) pk)

/-- The `POS_PROP` loop of `collect_resources`: recurse into each property
value with pointer `{ptr}/{kw}/{escape(pname)}`. -/
def loopProps (rec : JsonValue → String → ResList → CollectRes) :
    List (String × JsonValue) → String → ResList → CollectRes
  | [], _, res => some (res, none)
  | (name, v) :: rest, pk, res =>
    resSeq (rec v (pk ++ "/" ++ escape name) res) (loopProps rec rest pk)

/-- Processing of a single keyword occurrence in `collect_resources`: the
`POS_SELF`, `POS_ITEM` and `POS_PROP` blocks in source order, each guarded by
its flag and by the value's JSON type. -/
def processKw (rec : JsonValue → String → ResList → CollectRes)
    (kw : String) (pos : Nat) (v : JsonValue) (ptr : String) (res : ResList) :
    CollectRes :=
  resSeq
    (if pos &&& POS_SELF ≠ 0 then rec v (ptr ++ "/" ++ kw) res
     else some (res, none)) fun res1 =>
  resSeq
    (if pos &&& POS_ITEM ≠ 0 then
       match v with
       | JsonValue.arr arr => loopItems rec arr 0 (ptr ++ "/" ++ kw) res1
       | _ => some (res1, none)
     else some (res1, none)) fun res2 =>
  if pos &&& POS_PROP ≠ 0 then
    match v with
    | JsonValue.obj props => loopProps rec props (ptr ++ "/" ++ kw) res2
    | _ => some (res2, none)
  else some (res2, none)

/-- The keyword loop of `collect_resources` over the dialect's table (the
`HashMap` iteration, determinized to the table's insertion order): skip
keywords absent from the node, otherwise process and short-circuit errors. -/
def loopKws (rec : JsonValue → String → ResList → CollectRes) :
    List (String × Nat) → List (String × JsonValue) → String → ResList → CollectRes
  | [], _, _, res => some (res, none)
  | (kw, pos) :: rest, obj, ptr, res =>
    match assocLookup obj kw with
    | none => loopKws rec rest obj ptr res
    | some v => resSeq (processKw rec kw pos v ptr res) (loopKws rec rest obj ptr)

/-- `Draft::collect_resources`, fuelled on recursion depth: non-objects
succeed immediately; a string-valued identifier keyword is split, its
pre-fragment part joined against the current base (failure returns
`Err(ptr)`), recorded at the current pointer and used as the children's base;
a root node without one records the incoming base; then every table keyword
present on the node is processed. -/
def collect_resources (d : Draft) : Nat → JsonValue → Url → String → ResList → CollectRes
  | 0, _, _, _, _ => none
  | fuel + 1, json, base, ptr, res =>
    match json with
    | JsonValue.obj obj =>
      match assocLookup obj d.id with
      | some (JsonValue.str obj_id) =>
        match urlJoin base (splitRef obj_id).1 with
        | none => some (res, some ptr)
        | some u =>
          loopKws (fun v p r => collect_resources d fuel v u p r) d.subschemas obj ptr
            (insertRes res ptr { id := u })
      | _ =>
        loopKws (fun v p r => collect_resources d fuel v base p r) d.subschemas obj ptr
          (if ptr = "" then insertRes res ptr { id := base } else res)
    | _ => some (res, none)

/-- One step from a node to a nested schema, mirroring the three recursion
positions of `collect_resources`. -/
inductive PathStep where
  | self (kw : String)
  | item (kw : String) (i : Nat)
  | prop (kw : String) (name : String)

/-- The child of a node reached by one step: the step's keyword must carry
the corresponding position flag in the dialect's table and the node's value
must have the corresponding JSON type. -/
def stepChild (d : Draft) (json : JsonValue) : PathStep → Option JsonValue
  | PathStep.self kw =>
    match json with
    | JsonValue.obj fields =>
      match assocLookup d.subschemas kw with
      | some pos => if pos &&& POS_SELF ≠ 0 then assocLookup fields kw else none
      | none => none
    | _ => none
  | PathStep.item kw i =>
    match json with
    | JsonValue.obj fields =>
      match assocLookup d.subschemas kw with
      | some pos =>
        if pos &&& POS_ITEM ≠ 0 then
          match assocLookup fields kw with
          | some (JsonValue.arr items) => items.get? i
          | _ => none
        else none
      | none => none
    | _ => none
  | PathStep.prop kw name =>
    match json with
    | JsonValue.obj fields =>
      match assocLookup d.subschemas kw with
      | some pos =>
        if pos &&& POS_PROP ≠ 0 then
          match assocLookup fields kw with
          | some (JsonValue.obj props) => assocLookup props name
          | _ => none
        else none
      | none => none
    | _ => none

/-- The node reached from `json` by a path of steps. -/
def nodeAt (d : Draft) : JsonValue → List PathStep → Option JsonValue
  | json, [] => some json
  | json, st :: rest =>
    match stepChild d json st with
    | some c => nodeAt d c rest
    | none => none

/-- The JSON-Pointer segment contributed by one step. -/
def stepPtr : PathStep → String
  | PathStep.self kw => "/" ++ kw
  | PathStep.item kw i => "/" ++ kw ++ "/" ++ natToDec i
  | PathStep.prop kw name => "/" ++ kw ++ "/" ++ escape name

/-- The JSON Pointer of the node reached by a path, below an initial
pointer. -/
def ptrOfPath (ptr : String) (path : List PathStep) : String :=
  path.foldl (fun p st => p ++ stepPtr st) ptr

/-- The identifier declared by a node: the string value of the dialect's
identifier keyword, if any. -/
def idOf (d : Draft) : JsonValue → Option String
  | JsonValue.obj fields =>
    match assocLookup fields d.id with
    | some (JsonValue.str s) => some s
    | _ => none
  | _ => none

/-- The base URI a node hands to its children: its own resolved identifier
when it declares one, otherwise the base it inherited. -/
def effBase (d : Draft) (json : JsonValue) (base : Url) : Option Url :=
  match idOf d json with
  | some s => urlJoin base (splitRef s).1
  | none => some base

/-- The specification's base-URI rule along a path: resolve each ancestor's
declared identifier (nearest declaration last) starting from the initial
base. -/
def baseAt (d : Draft) : JsonValue → Url → List PathStep → Option Url
  | _, base, [] => some base
  | json, base, st :: rest =>
    match effBase d json base with
    | some b1 =>
      match stepChild d json st with
      | some c => baseAt d c b1 rest
      | none => none
    | none => none

/-- Well-formed JSON: object keys are unique at every level, as guaranteed by
serde_json's `Map` type. -/
inductive WfJson : JsonValue → Prop where
  | null : WfJson JsonValue.null
  | bool (b : Bool) : WfJson (JsonValue.bool b)
  | num (n : Int) : WfJson (JsonValue.num n)
  | str (s : String) : WfJson (JsonValue.str s)
  | arr (items : List JsonValue) (h : ∀ v ∈ items, WfJson v) : WfJson (JsonValue.arr items)
  | obj (fields : List (String × JsonValue)) (hnd : (fields.map Prod.fst).Nodup)
      (h : ∀ kv ∈ fields, WfJson kv.2) : WfJson (JsonValue.obj fields)


/-- The initial base URI of the worked example (`test_lookup_id`). -/
def testBase : Url :=
  { scheme := "http", authority := some "a.com", path := "/schema.json", query := none }

/-- An absolute `http` URL literal with the given host and path. -/
def urlOf (host p : String) : Url :=
  { scheme := "http", authority := some host, path := p, query := none }

/-- The worked example document of the design (`test_lookup_id`). -/
def testDoc : JsonValue := JsonValue.obj [
  ("id", JsonValue.str "http://a.com/schemas/schema.json"),
  ("definitions", JsonValue.obj [
    ("s1", JsonValue.obj [("id", JsonValue.str "http://a.com/definitions/s1")]),
    ("s2", JsonValue.obj [
      ("id", JsonValue.str "../s2"),
      ("items", JsonValue.arr [
        JsonValue.obj [("id", JsonValue.str "http://c.com/item")],
        JsonValue.obj [("id", JsonValue.str "http://d.com/item")]])]),
    ("s3", JsonValue.obj [
      ("definitions", JsonValue.obj [
        ("s1", JsonValue.obj [
          ("id", JsonValue.str "s3"),
          ("items", JsonValue.obj [("id", JsonValue.str "http://b.com/item")])])])]),
    ("s4", JsonValue.obj [("id", JsonValue.str "http://e.com/def#abcd")])])]

/-- The resource map the worked example is expected to produce, in traversal
order. -/
def testExpected : ResList := [
  ("", { id := urlOf "a.com" "/schemas/schema.json" }),
  ("/definitions/s1", { id := urlOf "a.com" "/definitions/s1" }),
  ("/definitions/s2", { id := urlOf "a.com" "/s2" }),
  ("/definitions/s2/items/0", { id := urlOf "c.com" "/item" }),
  ("/definitions/s2/items/1", { id := urlOf "d.com" "/item" }),
  ("/definitions/s3/definitions/s1", { id := urlOf "a.com" "/schemas/s3" }),
  ("/definitions/s3/definitions/s1/items", { id := urlOf "b.com" "/item" }),
  ("/definitions/s4", { id := urlOf "e.com" "/def" })]

/-- A document whose root identifier contains a fragment and whose nested
schema carries a relative identifier. -/
def fragDoc : JsonValue := JsonValue.obj [
  ("id", JsonValue.str "http://e.com/def#abcd"),
  ("items", JsonValue.obj [("id", JsonValue.str "x")])]

/-- A document whose root identifier fails RFC-3986 resolution (`http://`
has an empty host). -/
def errDoc : JsonValue := JsonValue.obj [("id", JsonValue.str "http://")]

/-- The preprocessing described by claim C2: split off the fragment (failing
when non-empty), strip one leading scheme from the pre-fragment remainder,
percent-decode. -/
def claim_pre_transform (url : String) : Option String :=
  if (splitRef url).2 ≠ "" then none
  else
    let u := (splitRef url).1
    let u1 := match stripPre "http://" u with
      | some t => t
      | none =>
        match stripPre "https://" u with
        | some t => t
        | none => u
    path_unescape u1

/-- A recursion callback only ever appends to the resource map. -/
def Grows (rec : JsonValue → String → ResList → CollectRes) : Prop :=
  ∀ v p res out, rec v p res = some out → ∃ ex, out.1 = res ++ ex

theorem grows_trans {a b c : ResList} (h1 : ∃ ex, b = a ++ ex)
    (h2 : ∃ ex, c = b ++ ex) : ∃ ex, c = a ++ ex := by
  obtain ⟨e1, rfl⟩ := h1
  obtain ⟨e2, rfl⟩ := h2
  exact ⟨e1 ++ e2, List.append_assoc a e1 e2⟩

theorem mem_of_grows {x : String × Resource} {a b : ResList}
    (h : ∃ ex, b = a ++ ex) (hx : x ∈ a) : x ∈ b := by
  obtain ⟨ex, rfl⟩ := h
  exact List.mem_append_left _ hx

theorem resSeq_grows {r : CollectRes} {f : ResList → CollectRes} {res : ResList}
    {out : ResList × Option String}
    (h : resSeq r f = some out)
    (h1 : ∀ out1, r = some out1 → ∃ ex, out1.1 = res ++ ex)
    (h2 : ∀ m out2, f m = some out2 → ∃ ex, out2.1 = m ++ ex) :
    ∃ ex, out.1 = res ++ ex := by
  cases hr : r with
  | none => rw [hr] at h; exact absurd h (by simp [resSeq])
  | some p =>
    obtain ⟨m, e⟩ := p
    cases e with
    | none =>
      rw [hr] at h
      exact grows_trans (h1 (m, none) hr) (h2 m out h)
    | some e0 =>
      rw [hr] at h
      simp only [resSeq, Option.some.injEq] at h
      subst h
      exact h1 (m, some e0) hr

theorem loopItems_grows {rec : JsonValue → String → ResList → CollectRes}
    (hrec : Grows rec) :
    ∀ (arr : List JsonValue) (i : Nat) (pk : String) (res : ResList) out,
      loopItems rec arr i pk res = some out → ∃ ex, out.1 = res ++ ex := by
  intro arr
  induction arr with
  | nil =>
    intro i pk res out h
    simp only [loopItems, Option.some.injEq] at h
    subst h
    exact ⟨[], by simp⟩
  | cons v rest ih =>
    intro i pk res out h
    simp only [loopItems] at h
    refine resSeq_grows h ?_ ?_
    · intro out1 h1
      exact hrec _ _ _ _ h1
    · intro m out2 h2
      exact ih (i + 1) pk m out2 h2

theorem loopProps_grows {rec : JsonValue → String → ResList → CollectRes}
    (hrec : Grows rec) :
    ∀ (props : List (String × JsonValue)) (pk : String) (res : ResList) out,
      loopProps rec props pk res = some out → ∃ ex, out.1 = res ++ ex := by
  intro props
  induction props with
  | nil =>
    intro pk res out h
    simp only [loopProps, Option.some.injEq] at h
    subst h
    exact ⟨[], by simp⟩
  | cons nv rest ih =>
    intro pk res out h
    obtain ⟨name, v⟩ := nv
    simp only [loopProps] at h
    refine resSeq_grows h ?_ ?_
    · intro out1 h1
      exact hrec _ _ _ _ h1
    · intro m out2 h2
      exact ih pk m out2 h2

theorem processKw_grows {rec : JsonValue → String → ResList → CollectRes}
    (hrec : Grows rec) {kw : String} {pos : Nat} {v : JsonValue} {ptr : String}
    {res : ResList} {out : ResList × Option String}
    (h : processKw rec kw pos v ptr res = some out) : ∃ ex, out.1 = res ++ ex := by
  unfold processKw at h
  refine resSeq_grows h ?_ ?_
  · intro out1 h1
    split at h1
    · exact hrec _ _ _ _ h1
    · simp only [Option.some.injEq] at h1
      subst h1
      exact ⟨[], by simp⟩
  · intro m out2 h2
    refine resSeq_grows h2 ?_ ?_
    · intro out1 h1
      split at h1
      · split at h1
        · exact loopItems_grows hrec _ _ _ _ _ h1
        · simp only [Option.some.injEq] at h1
          subst h1
          exact ⟨[], by simp⟩
      · simp only [Option.some.injEq] at h1
        subst h1
        exact ⟨[], by simp⟩
    · intro m2 out3 h3
      split at h3
      · split at h3
        · exact loopProps_grows hrec _ _ _ _ h3
        · simp only [Option.some.injEq] at h3
          subst h3
          exact ⟨[], by simp⟩
      · simp only [Option.some.injEq] at h3
        subst h3
        exact ⟨[], by simp⟩

theorem loopKws_grows {rec : JsonValue → String → ResList → CollectRes}
    (hrec : Grows rec) :
    ∀ (kws : List (String × Nat)) (obj : List (String × JsonValue)) (ptr : String)
      (res : ResList) out,
      loopKws rec kws obj ptr res = some out → ∃ ex, out.1 = res ++ ex := by
  intro kws
  induction kws with
  | nil =>
    intro obj ptr res out h
    simp only [loopKws, Option.some.injEq] at h
    subst h
    exact ⟨[], by simp⟩
  | cons kp rest ih =>
    intro obj ptr res out h
    obtain ⟨kw, pos⟩ := kp
    simp only [loopKws] at h
    cases hl : assocLookup obj kw with
    | none =>
      rw [hl] at h
      exact ih obj ptr res out h
    | some v =>
      rw [hl] at h
      refine resSeq_grows h ?_ ?_
      · intro out1 h1
        exact processKw_grows hrec h1
      · intro m out2 h2
        exact ih obj ptr m out2 h2

theorem collect_grows (d : Draft) :
    ∀ (fuel : Nat) (json : JsonValue) (base : Url) (ptr : String) (res : ResList) out,
      collect_resources d fuel json base ptr res = some out → ∃ ex, out.1 = res ++ ex := by
  intro fuel
  induction fuel with
  | zero =>
    intro json base ptr res out h
    simp [collect_resources] at h
  | succ fuel ih =>
    intro json base ptr res out h
    cases json with
    | obj obj =>
      simp only [collect_resources] at h
      cases hid : assocLookup obj d.id with
      | some idv =>
        cases idv with
        | str obj_id =>
          rw [hid] at h
          simp only at h
          cases hj : urlJoin base (splitRef obj_id).1 with
          | none =>
            rw [hj] at h
            simp only [Option.some.injEq] at h
            subst h
            exact ⟨[], by simp⟩
          | some u =>
            rw [hj] at h
            have hrg : Grows fun v p r => collect_resources d fuel v u p r :=
              fun v p r out' h' => ih v u p r out' h'
            have hg := loopKws_grows hrg d.subschemas obj ptr _ out h
            exact grows_trans ⟨[(ptr, { id := u })], rfl⟩ hg
        | null =>
          rw [hid] at h
          simp only at h
          split at h
          · have hrg : Grows fun v p r => collect_resources d fuel v base p r :=
              fun v p r out' h' => ih v base p r out' h'
            have hg := loopKws_grows hrg d.subschemas obj ptr _ out h
            exact grows_trans ⟨[(ptr, { id := base })], rfl⟩ hg
          · exact loopKws_grows (fun v p r out' h' => ih v base p r out' h')
              d.subschemas obj ptr _ out h
        | bool b =>
          rw [hid] at h
          simp only at h
          split at h
          · have hrg : Grows fun v p r => collect_resources d fuel v base p r :=
              fun v p r out' h' => ih v base p r out' h'
            have hg := loopKws_grows hrg d.subschemas obj ptr _ out h
            exact grows_trans ⟨[(ptr, { id := base })], rfl⟩ hg
          · exact loopKws_grows (fun v p r out' h' => ih v base p r out' h')
              d.subschemas obj ptr _ out h
        | num n =>
          rw [hid] at h
          simp only at h
          split at h
          · have hrg : Grows fun v p r => collect_resources d fuel v base p r :=
              fun v p r out' h' => ih v base p r out' h'
            have hg := loopKws_grows hrg d.subschemas obj ptr _ out h
            exact grows_trans ⟨[(ptr, { id := base })], rfl⟩ hg
          · exact loopKws_grows (fun v p r out' h' => ih v base p r out' h')
              d.subschemas obj ptr _ out h
        | arr a =>
          rw [hid] at h
          simp only at h
          split at h
          · have hrg : Grows fun v p r => collect_resources d fuel v base p r :=
              fun v p r out' h' => ih v base p r out' h'
            have hg := loopKws_grows hrg d.subschemas obj ptr _ out h
            exact grows_trans ⟨[(ptr, { id := base })], rfl⟩ hg
          · exact loopKws_grows (fun v p r out' h' => ih v base p r out' h')
              d.subschemas obj ptr _ out h
        | obj o =>
          rw [hid] at h
          simp only at h
          split at h
          · have hrg : Grows fun v p r => collect_resources d fuel v base p r :=
              fun v p r out' h' => ih v base p r out' h'
            have hg := loopKws_grows hrg d.subschemas obj ptr _ out h
            exact grows_trans ⟨[(ptr, { id := base })], rfl⟩ hg
          · exact loopKws_grows (fun v p r out' h' => ih v base p r out' h')
              d.subschemas obj ptr _ out h
      | none =>
        rw [hid] at h
        simp only at h
        split at h
        · have hrg : Grows fun v p r => collect_resources d fuel v base p r :=
            fun v p r out' h' => ih v base p r out' h'
          have hg := loopKws_grows hrg d.subschemas obj ptr _ out h
          exact grows_trans ⟨[(ptr, { id := base })], rfl⟩ hg
        · exact loopKws_grows (fun v p r out' h' => ih v base p r out' h')
            d.subschemas obj ptr _ out h
    | null =>
      simp only [collect_resources, Option.some.injEq] at h
      subst h
      exact ⟨[], by simp⟩
    | bool b =>
      simp only [collect_resources, Option.some.injEq] at h
      subst h
      exact ⟨[], by simp⟩
    | num n =>
      simp only [collect_resources, Option.some.injEq] at h
      subst h
      exact ⟨[], by simp⟩
    | str s =>
      simp only [collect_resources, Option.some.injEq] at h
      subst h
      exact ⟨[], by simp⟩
    | arr a =>
      simp only [collect_resources, Option.some.injEq] at h
      subst h
      exact ⟨[], by simp⟩

theorem resSeq_ok_iff {r : CollectRes} {f : ResList → CollectRes} {res' : ResList} :
    resSeq r f = some (res', none) ↔
      ∃ m, r = some (m, none) ∧ f m = some (res', none) := by
  cases r with
  | none => simp [resSeq]
  | some p =>
    obtain ⟨m, e⟩ := p
    cases e with
    | none => simp [resSeq]
    | some e0 => simp [resSeq]

theorem resSeq_err_iff {r : CollectRes} {f : ResList → CollectRes} {res' : ResList}
    {e : String} :
    resSeq r f = some (res', some e) ↔
      r = some (res', some e) ∨ ∃ m, r = some (m, none) ∧ f m = some (res', some e) := by
  cases r with
  | none => simp [resSeq]
  | some p =>
    obtain ⟨m, e1⟩ := p
    cases e1 with
    | none => simp [resSeq]
    | some e0 => simp [resSeq]

theorem assocLookup_mem {α : Type} {l : List (String × α)} {k : String} {v : α}
    (h : assocLookup l k = some v) : (k, v) ∈ l := by
  induction l with
  | nil => simp [assocLookup] at h
  | cons p rest ih =>
    obtain ⟨k0, v0⟩ := p
    simp only [assocLookup] at h
    split at h
    · simp only [Option.some.injEq] at h
      subst h
      rename_i hk
      subst hk
      exact List.mem_cons_self _ _
    · exact List.mem_cons_of_mem _ (ih h)

theorem assocLookup_of_nodup_mem {α : Type} {l : List (String × α)} {k : String} {v : α}
    (hnd : (l.map Prod.fst).Nodup) (h : (k, v) ∈ l) : assocLookup l k = some v := by
  induction l with
  | nil => simp at h
  | cons p rest ih =>
    obtain ⟨k0, v0⟩ := p
    simp only [List.map_cons, List.nodup_cons] at hnd
    rcases List.mem_cons.mp h with heq | hmem
    · cases heq
      simp [assocLookup]
    · have hkne : k0 ≠ k := by
        intro hk
        subst hk
        exact hnd.1 (List.mem_map.mpr ⟨(k0, v), hmem, rfl⟩)
      simp only [assocLookup, if_neg hkne]
      exact ih hnd.2 hmem

/-- In a successful items loop, element `j` was processed successfully, at
pointer `pk/(i0+j)`, and its output entries survive into the final map. -/
theorem loopItems_ok_at {rec : JsonValue → String → ResList → CollectRes}
    (hrec : Grows rec) :
    ∀ (arr : List JsonValue) (i0 : Nat) (pk : String) (res res' : ResList),
      loopItems rec arr i0 pk res = some (res', none) →
      ∀ (j : Nat) (elem : JsonValue), arr.get? j = some elem →
      ∃ t0 t1, rec elem (pk ++ "/" ++ natToDec (i0 + j)) t0 = some (t1, none) ∧ t1 ⊆ res' := by
  intro arr
  induction arr with
  | nil =>
    intro i0 pk res res' h j elem hj
    simp at hj
  | cons v rest ih =>
    intro i0 pk res res' h j elem hj
    simp only [loopItems] at h
    obtain ⟨m, h1, h2⟩ := resSeq_ok_iff.mp h
    cases j with
    | zero =>
      simp only [List.get?] at hj
      injection hj with hj
      subst hj
      refine ⟨res, m, by simpa using h1, ?_⟩
      intro x hx
      exact mem_of_grows (loopItems_grows hrec rest (i0 + 1) pk m (res', none) h2) hx
    | succ j0 =>
      simp only [List.get?] at hj
      obtain ⟨t0, t1, hc, hsub⟩ := ih (i0 + 1) pk m res' h2 j0 elem hj
      refine ⟨t0, t1, ?_, hsub⟩
      have : i0 + 1 + j0 = i0 + (j0 + 1) := by omega
      rwa [this] at hc

/-- In a successful props loop, each property was processed successfully, at
pointer `pk/escape(name)`, and its output entries survive into the final
map. -/
theorem loopProps_ok_at {rec : JsonValue → String → ResList → CollectRes}
    (hrec : Grows rec) :
    ∀ (props : List (String × JsonValue)) (pk : String) (res res' : ResList),
      loopProps rec props pk res = some (res', none) →
      ∀ (name : String) (pv : JsonValue), (name, pv) ∈ props →
      ∃ t0 t1, rec pv (pk ++ "/" ++ escape name) t0 = some (t1, none) ∧ t1 ⊆ res' := by
  intro props
  induction props with
  | nil =>
    intro pk res res' h name pv hmem
    simp at hmem
  | cons nv rest ih =>
    intro pk res res' h name pv hmem
    obtain ⟨name0, v0⟩ := nv
    simp only [loopProps] at h
    obtain ⟨m, h1, h2⟩ := resSeq_ok_iff.mp h
    rcases List.mem_cons.mp hmem with heq | hmem2
    · cases heq
      refine ⟨res, m, h1, ?_⟩
      intro x hx
      exact mem_of_grows (loopProps_grows hrec rest pk m (res', none) h2) hx
    · exact ih pk m res' h2 name pv hmem2

/-- A successful `processKw` with the SELF flag ran the callback on the
keyword's value at pointer `ptr/kw`. -/
theorem processKw_ok_self {rec : JsonValue → String → ResList → CollectRes}
    (hrec : Grows rec) {kw : String} {pos : Nat} {v : JsonValue} {ptr : String}
    {res res' : ResList}
    (h : processKw rec kw pos v ptr res = some (res', none))
    (hpos : pos &&& POS_SELF ≠ 0) :
    ∃ t1, rec v (ptr ++ "/" ++ kw) res = some (t1, none) ∧ t1 ⊆ res' := by
  unfold processKw at h
  obtain ⟨m1, h1, hrest⟩ := resSeq_ok_iff.mp h
  rw [if_pos hpos] at h1
  obtain ⟨m2, h2, h3⟩ := resSeq_ok_iff.mp hrest
  refine ⟨m1, h1, ?_⟩
  intro x hx
  have hg2 : ∃ ex, m2 = m1 ++ ex := by
    revert h2
    split
    · split
      · intro h2
        exact loopItems_grows hrec _ _ _ _ (m2, none) h2
      · intro h2
        simp only [Option.some.injEq] at h2
        exact ⟨[], by simp [← (Prod.mk.injEq .. ▸ h2).1]⟩
    · intro h2
      simp only [Option.some.injEq] at h2
      exact ⟨[], by simp [← (Prod.mk.injEq .. ▸ h2).1]⟩
  have hg3 : ∃ ex, res' = m2 ++ ex := by
    revert h3
    split
    · split
      · intro h3
        exact loopProps_grows hrec _ _ _ (res', none) h3
      · intro h3
        simp only [Option.some.injEq] at h3
        exact ⟨[], by simp [← (Prod.mk.injEq .. ▸ h3).1]⟩
    · intro h3
      simp only [Option.some.injEq] at h3
      exact ⟨[], by simp [← (Prod.mk.injEq .. ▸ h3).1]⟩
  exact mem_of_grows hg3 (mem_of_grows hg2 hx)

theorem str_append_assoc (a b c : String) : a ++ b ++ c = a ++ (b ++ c) := by
  cases a
  cases b
  cases c
  simp only [HAppend.hAppend, Append.append, String.append]
  simp only [show ∀ (x y : List Char), x.append y = x ++ y from fun _ _ => rfl,
    List.append_assoc]

theorem ptrOfPath_cons (ptr : String) (st : PathStep) (rest : List PathStep) :
    ptrOfPath ptr (st :: rest) = ptrOfPath (ptr ++ stepPtr st) rest := rfl

theorem idOf_obj_iff {d : Draft} {obj : List (String × JsonValue)} {s : String} :
    idOf d (JsonValue.obj obj) = some s ↔
      assocLookup obj d.id = some (JsonValue.str s) := by
  simp only [idOf]
  cases h : assocLookup obj d.id with
  | none => simp
  | some w => cases w <;> simp

theorem stepChild_self_inv {d : Draft} {obj : List (String × JsonValue)} {kw : String}
    {c : JsonValue} (h : stepChild d (JsonValue.obj obj) (PathStep.self kw) = some c) :
    ∃ pos, assocLookup d.subschemas kw = some pos ∧ pos &&& POS_SELF ≠ 0 ∧
      assocLookup obj kw = some c := by
  simp only [stepChild] at h
  cases hp : assocLookup d.subschemas kw with
  | none => rw [hp] at h; exact absurd h (by simp)
  | some pos =>
    rw [hp] at h
    simp only at h
    split at h
    · exact ⟨pos, rfl, by assumption, h⟩
    · exact absurd h (by simp)

theorem stepChild_item_inv {d : Draft} {obj : List (String × JsonValue)} {kw : String}
    {i : Nat} {c : JsonValue}
    (h : stepChild d (JsonValue.obj obj) (PathStep.item kw i) = some c) :
    ∃ pos arr, assocLookup d.subschemas kw = some pos ∧ pos &&& POS_ITEM ≠ 0 ∧
      assocLookup obj kw = some (JsonValue.arr arr) ∧ arr.get? i = some c := by
  simp only [stepChild] at h
  cases hp : assocLookup d.subschemas kw with
  | none => rw [hp] at h; exact absurd h (by simp)
  | some pos =>
    rw [hp] at h
    simp only at h
    split at h
    · cases hv : assocLookup obj kw with
      | none => rw [hv] at h; exact absurd h (by simp)
      | some w =>
        rw [hv] at h
        cases w with
        | arr arr => exact ⟨pos, arr, rfl, by assumption, rfl, h⟩
        | null => exact absurd h (by simp)
        | bool b => exact absurd h (by simp)
        | num n => exact absurd h (by simp)
        | str s => exact absurd h (by simp)
        | obj o => exact absurd h (by simp)
    · exact absurd h (by simp)

theorem stepChild_prop_inv {d : Draft} {obj : List (String × JsonValue)} {kw name : String}
    {c : JsonValue}
    (h : stepChild d (JsonValue.obj obj) (PathStep.prop kw name) = some c) :
    ∃ pos props, assocLookup d.subschemas kw = some pos ∧ pos &&& POS_PROP ≠ 0 ∧
      assocLookup obj kw = some (JsonValue.obj props) ∧ assocLookup props name = some c := by
  simp only [stepChild] at h
  cases hp : assocLookup d.subschemas kw with
  | none => rw [hp] at h; exact absurd h (by simp)
  | some pos =>
    rw [hp] at h
    simp only at h
    split at h
    · cases hv : assocLookup obj kw with
      | none => rw [hv] at h; exact absurd h (by simp)
      | some w =>
        rw [hv] at h
        cases w with
        | obj props => exact ⟨pos, props, rfl, by assumption, rfl, h⟩
        | null => exact absurd h (by simp)
        | bool b => exact absurd h (by simp)
        | num n => exact absurd h (by simp)
        | str s => exact absurd h (by simp)
        | arr a => exact absurd h (by simp)
    · exact absurd h (by simp)

theorem stepChild_not_obj {d : Draft} {json : JsonValue} {st : PathStep}
    (hno : ∀ obj, json ≠ JsonValue.obj obj) : stepChild d json st = none := by
  cases st <;> cases json <;> first
    | rfl
    | exact absurd rfl (hno _)

/-- A successful `processKw` with the ITEM flag on an array value ran the
items loop on it. -/
theorem processKw_ok_item {rec : JsonValue → String → ResList → CollectRes}
    (hrec : Grows rec) {kw : String} {pos : Nat} {arr : List JsonValue} {ptr : String}
    {res res' : ResList}
    (h : processKw rec kw pos (JsonValue.arr arr) ptr res = some (res', none))
    (hpos : pos &&& POS_ITEM ≠ 0) :
    ∃ s1 s2, loopItems rec arr 0 (ptr ++ "/" ++ kw) s1 = some (s2, none) ∧ s2 ⊆ res' := by
  unfold processKw at h
  obtain ⟨m1, h1, hrest⟩ := resSeq_ok_iff.mp h
  obtain ⟨m2, h2, h3⟩ := resSeq_ok_iff.mp hrest
  rw [if_pos hpos] at h2
  refine ⟨m1, m2, h2, ?_⟩
  intro x hx
  have hg3 : ∃ ex, res' = m2 ++ ex := by
    revert h3
    split
    · split
      · intro h3
        exact loopProps_grows hrec _ _ _ (res', none) h3
      · intro h3
        simp only [Option.some.injEq] at h3
        exact ⟨[], by simp [← (Prod.mk.injEq .. ▸ h3).1]⟩
    · intro h3
      simp only [Option.some.injEq] at h3
      exact ⟨[], by simp [← (Prod.mk.injEq .. ▸ h3).1]⟩
  exact mem_of_grows hg3 hx

/-- A successful `processKw` with the PROP flag on an object value ran the
props loop on it. -/
theorem processKw_ok_prop {rec : JsonValue → String → ResList → CollectRes}
    {kw : String} {pos : Nat} {props : List (String × JsonValue)} {ptr : String}
    {res res' : ResList}
    (h : processKw rec kw pos (JsonValue.obj props) ptr res = some (res', none))
    (hpos : pos &&& POS_PROP ≠ 0) :
    ∃ s1, loopProps rec props (ptr ++ "/" ++ kw) s1 = some (res', none) := by
  unfold processKw at h
  obtain ⟨m1, h1, hrest⟩ := resSeq_ok_iff.mp h
  obtain ⟨m2, h2, h3⟩ := resSeq_ok_iff.mp hrest
  rw [if_pos hpos] at h3
  exact ⟨m2, h3⟩

/-- In a successful keyword loop, every listed keyword present on the node
was processed successfully and its output entries survive into the final
map. -/
theorem loopKws_ok_at {rec : JsonValue → String → ResList → CollectRes}
    (hrec : Grows rec) :
    ∀ (kws : List (String × Nat)) (obj : List (String × JsonValue)) (ptr : String)
      (res res' : ResList),
      loopKws rec kws obj ptr res = some (res', none) →
      ∀ (kw : String) (pos : Nat) (v : JsonValue), (kw, pos) ∈ kws →
        assocLookup obj kw = some v →
      ∃ t0 t1, processKw rec kw pos v ptr t0 = some (t1, none) ∧ t1 ⊆ res' := by
  intro kws
  induction kws with
  | nil =>
    intro obj ptr res res' h kw pos v hmem hv
    simp at hmem
  | cons kp rest ih =>
    intro obj ptr res res' h kw pos v hmem hv
    obtain ⟨kw0, pos0⟩ := kp
    simp only [loopKws] at h
    rcases List.mem_cons.mp hmem with heq | hmem2
    · injection heq with hk hp
      subst hk
      subst hp
      rw [hv] at h
      obtain ⟨m, h1, h2⟩ := resSeq_ok_iff.mp h
      refine ⟨res, m, h1, ?_⟩
      intro x hx
      exact mem_of_grows (loopKws_grows hrec rest obj ptr m (res', none) h2) hx
    · cases hl : assocLookup obj kw0 with
      | none =>
        rw [hl] at h
        exact ih obj ptr res res' h kw pos v hmem2 hv
      | some v0 =>
        rw [hl] at h
        obtain ⟨m, h1, h2⟩ := resSeq_ok_iff.mp h
        exact ih obj ptr m res' h2 kw pos v hmem2 hv

theorem collect_obj_eq (d : Draft) (fuel : Nat) (obj : List (String × JsonValue))
    (base : Url) (ptr : String) (res : ResList) :
    collect_resources d (fuel + 1) (JsonValue.obj obj) base ptr res =
      match assocLookup obj d.id with
      | some (JsonValue.str obj_id) =>
        match urlJoin base (splitRef obj_id).1 with
        | none => some (res, some ptr)
        | some u =>
          loopKws (fun v p r => collect_resources d fuel v u p r) d.subschemas obj ptr
            (insertRes res ptr { id := u })
      | _ =>
        loopKws (fun v p r => collect_resources d fuel v base p r) d.subschemas obj ptr
          (if ptr = "" then insertRes res ptr { id := base } else res) := rfl

theorem collect_obj_id_some {d : Draft} {fuel : Nat} {obj : List (String × JsonValue)}
    {base : Url} {ptr : String} {res : ResList} {s : String}
    (hid : idOf d (JsonValue.obj obj) = some s) :
    collect_resources d (fuel + 1) (JsonValue.obj obj) base ptr res =
      match urlJoin base (splitRef s).1 with
      | none => some (res, some ptr)
      | some u =>
        loopKws (fun v p r => collect_resources d fuel v u p r) d.subschemas obj ptr
          (insertRes res ptr { id := u }) := by
  rw [collect_obj_eq, idOf_obj_iff.mp hid]

theorem collect_obj_id_none {d : Draft} {fuel : Nat} {obj : List (String × JsonValue)}
    {base : Url} {ptr : String} {res : ResList}
    (hid : idOf d (JsonValue.obj obj) = none) :
    collect_resources d (fuel + 1) (JsonValue.obj obj) base ptr res =
      loopKws (fun v p r => collect_resources d fuel v base p r) d.subschemas obj ptr
        (if ptr = "" then insertRes res ptr { id := base } else res) := by
  rw [collect_obj_eq]
  cases hl : assocLookup obj d.id with
  | none => rfl
  | some w =>
    cases w with
    | str s => exact absurd (idOf_obj_iff.mpr hl) (by rw [hid]; simp)
    | null => rfl
    | bool b => rfl
    | num n => rfl
    | arr a => rfl
    | obj o => rfl

theorem effBase_some_id {d : Draft} {obj : List (String × JsonValue)} {s : String}
    {base : Url} (hid : idOf d (JsonValue.obj obj) = some s) :
    effBase d (JsonValue.obj obj) base = urlJoin base (splitRef s).1 := by
  simp [effBase, hid]

theorem effBase_none_id {d : Draft} {json : JsonValue} {base : Url}
    (hid : idOf d json = none) : effBase d json base = some base := by
  simp [effBase, hid]

/-- The central success-run lemma: in a successful collection, every node
reachable by a valid path that declares an identifier resolvable against the
spec-level base of that path is recorded at the path's JSON Pointer with the
resolved, fragment-free URI. -/
theorem collect_records_at_path (d : Draft) :
    ∀ (fuel : Nat) (json : JsonValue) (base : Url) (ptr : String) (res res' : ResList)
      (path : List PathStep) (node : JsonValue) (idstr : String) (bb u : Url),
      collect_resources d fuel json base ptr res = some (res', none) →
      nodeAt d json path = some node →
      idOf d node = some idstr →
      baseAt d json base path = some bb →
      urlJoin bb (splitRef idstr).1 = some u →
      (ptrOfPath ptr path, ({ id := u } : Resource)) ∈ res' := by
  intro fuel
  induction fuel with
  | zero =>
    intro json base ptr res res' path node idstr bb u hc hn hid hb hj
    simp [collect_resources] at hc
  | succ fuel ih =>
    intro json base ptr res res' path node idstr bb u hc hn hid hb hj
    have hrec : ∀ (b1 : Url), Grows fun v p r => collect_resources d fuel v b1 p r :=
      fun b1 v p r out h => collect_grows d fuel v b1 p r out h
    cases path with
    | nil =>
      simp only [nodeAt, Option.some.injEq] at hn
      subst hn
      cases json with
      | obj obj =>
        simp only [baseAt, Option.some.injEq] at hb
        subst hb
        rw [collect_obj_id_some hid, hj] at hc
        have hmem : (ptr, ({ id := u } : Resource)) ∈ insertRes res ptr { id := u } := by
          simp [insertRes]
        have hout := mem_of_grows
          (loopKws_grows (hrec u) d.subschemas obj ptr _ (res', none) hc) hmem
        simpa [ptrOfPath] using hout
      | null => simp [idOf] at hid
      | bool b => simp [idOf] at hid
      | num n => simp [idOf] at hid
      | str s => simp [idOf] at hid
      | arr a => simp [idOf] at hid
    | cons st rest =>
      simp only [nodeAt] at hn
      cases hsc : stepChild d json st with
      | none => rw [hsc] at hn; exact absurd hn (by simp)
      | some c =>
        rw [hsc] at hn
        cases json with
        | obj obj =>
          simp only [baseAt] at hb
          cases heb : effBase d (JsonValue.obj obj) base with
          | none => rw [heb] at hb; exact absurd hb (by simp)
          | some b1 =>
            rw [heb, hsc] at hb
            have hstep : ∃ res0, loopKws (fun v p r => collect_resources d fuel v b1 p r)
                d.subschemas obj ptr res0 = some (res', none) := by
              cases hio : idOf d (JsonValue.obj obj) with
              | some s =>
                rw [collect_obj_id_some hio] at hc
                have heb2 : urlJoin base (splitRef s).1 = some b1 := by
                  rw [← effBase_some_id hio]
                  exact heb
                rw [heb2] at hc
                exact ⟨_, hc⟩
              | none =>
                rw [effBase_none_id hio] at heb
                injection heb with hbb
                subst hbb
                rw [collect_obj_id_none hio] at hc
                exact ⟨_, hc⟩
            obtain ⟨res0, hlk⟩ := hstep
            cases st with
            | self kw =>
              obtain ⟨pos, hps, hflag, hval⟩ := stepChild_self_inv hsc
              obtain ⟨t0, t1, hpk, hsub1⟩ := loopKws_ok_at (hrec b1) d.subschemas obj ptr
                res0 res' hlk kw pos c (assocLookup_mem hps) hval
              obtain ⟨t2, hrc, hsub2⟩ := processKw_ok_self (hrec b1) hpk hflag
              have hin := ih c b1 (ptr ++ "/" ++ kw) t0 t2 rest node idstr bb u hrc hn hid hb hj
              have heq : ptrOfPath ptr (PathStep.self kw :: rest) =
                  ptrOfPath (ptr ++ "/" ++ kw) rest := by
                rw [ptrOfPath_cons]
                simp [stepPtr, str_append_assoc]
              rw [heq]
              exact hsub1 (hsub2 hin)
            | item kw i =>
              obtain ⟨pos, arr, hps, hflag, hval, hget⟩ := stepChild_item_inv hsc
              obtain ⟨t0, t1, hpk, hsub1⟩ := loopKws_ok_at (hrec b1) d.subschemas obj ptr
                res0 res' hlk kw pos (JsonValue.arr arr) (assocLookup_mem hps) hval
              obtain ⟨s1, s2, hli, hsub2⟩ := processKw_ok_item (hrec b1) hpk hflag
              obtain ⟨t2, t3, hrc, hsub3⟩ := loopItems_ok_at (hrec b1) arr 0
                (ptr ++ "/" ++ kw) s1 s2 hli i c hget
              rw [Nat.zero_add] at hrc
              have hin := ih c b1 (ptr ++ "/" ++ kw ++ "/" ++ natToDec i) t2 t3 rest
                node idstr bb u hrc hn hid hb hj
              have heq : ptrOfPath ptr (PathStep.item kw i :: rest) =
                  ptrOfPath (ptr ++ "/" ++ kw ++ "/" ++ natToDec i) rest := by
                rw [ptrOfPath_cons]
                simp [stepPtr, str_append_assoc]
              rw [heq]
              exact hsub1 (hsub2 (hsub3 hin))
            | prop kw name =>
              obtain ⟨pos, props, hps, hflag, hval, hget⟩ := stepChild_prop_inv hsc
              obtain ⟨t0, t1, hpk, hsub1⟩ := loopKws_ok_at (hrec b1) d.subschemas obj ptr
                res0 res' hlk kw pos (JsonValue.obj props) (assocLookup_mem hps) hval
              obtain ⟨s1, hlp⟩ := processKw_ok_prop hpk hflag
              obtain ⟨t2, t3, hrc, hsub3⟩ := loopProps_ok_at (hrec b1) props
                (ptr ++ "/" ++ kw) s1 t1 hlp name c (assocLookup_mem hget)
              have hin := ih c b1 (ptr ++ "/" ++ kw ++ "/" ++ escape name) t2 t3 rest
                node idstr bb u hrc hn hid hb hj
              have heq : ptrOfPath ptr (PathStep.prop kw name :: rest) =
                  ptrOfPath (ptr ++ "/" ++ kw ++ "/" ++ escape name) rest := by
                rw [ptrOfPath_cons]
                simp [stepPtr, str_append_assoc]
              rw [heq]
              exact hsub1 (hsub3 hin)
        | null =>
          rw [stepChild_not_obj (fun o h => JsonValue.noConfusion h)] at hsc
          exact absurd hsc (by simp)
        | bool b =>
          rw [stepChild_not_obj (fun o h => JsonValue.noConfusion h)] at hsc
          exact absurd hsc (by simp)
        | num n =>
          rw [stepChild_not_obj (fun o h => JsonValue.noConfusion h)] at hsc
          exact absurd hsc (by simp)
        | str s =>
          rw [stepChild_not_obj (fun o h => JsonValue.noConfusion h)] at hsc
          exact absurd hsc (by simp)
        | arr a =>
          rw [stepChild_not_obj (fun o h => JsonValue.noConfusion h)] at hsc
          exact absurd hsc (by simp)

/-- An items-loop failure comes from some element's recursive call, at that
element's pointer, and is returned unchanged. -/
theorem loopItems_err_at {rec : JsonValue → String → ResList → CollectRes} :
    ∀ (arr : List JsonValue) (i0 : Nat) (pk : String) (res res' : ResList) (e : String),
      loopItems rec arr i0 pk res = some (res', some e) →
      ∃ j elem t0, arr.get? j = some elem ∧
        rec elem (pk ++ "/" ++ natToDec (i0 + j)) t0 = some (res', some e) := by
  intro arr
  induction arr with
  | nil =>
    intro i0 pk res res' e h
    simp [loopItems] at h
  | cons v rest ih =>
    intro i0 pk res res' e h
    simp only [loopItems] at h
    rcases resSeq_err_iff.mp h with herr | ⟨m, hok, htail⟩
    · exact ⟨0, v, res, rfl, by simpa using herr⟩
    · obtain ⟨j, elem, t0, hj, hcall⟩ := ih (i0 + 1) pk m res' e htail
      refine ⟨j + 1, elem, t0, by simpa using hj, ?_⟩
      have : i0 + 1 + j = i0 + (j + 1) := by omega
      rwa [this] at hcall

/-- A props-loop failure comes from some property's recursive call, at that
property's pointer, and is returned unchanged. -/
theorem loopProps_err_at {rec : JsonValue → String → ResList → CollectRes} :
    ∀ (props : List (String × JsonValue)) (pk : String) (res res' : ResList) (e : String),
      loopProps rec props pk res = some (res', some e) →
      ∃ name pv t0, (name, pv) ∈ props ∧
        rec pv (pk ++ "/" ++ escape name) t0 = some (res', some e) := by
  intro props
  induction props with
  | nil =>
    intro pk res res' e h
    simp [loopProps] at h
  | cons nv rest ih =>
    intro pk res res' e h
    obtain ⟨name0, v0⟩ := nv
    simp only [loopProps] at h
    rcases resSeq_err_iff.mp h with herr | ⟨m, hok, htail⟩
    · exact ⟨name0, v0, res, List.mem_cons_self _ _, herr⟩
    · obtain ⟨name, pv, t0, hmem, hcall⟩ := ih pk m res' e htail
      exact ⟨name, pv, t0, List.mem_cons_of_mem _ hmem, hcall⟩

/-- A `processKw` failure comes from one of its three position blocks, with
the flag set and the value of the corresponding JSON type. -/
theorem processKw_err_cases {rec : JsonValue → String → ResList → CollectRes}
    {kw : String} {pos : Nat} {v : JsonValue} {ptr : String} {res res' : ResList}
    {e : String} (h : processKw rec kw pos v ptr res = some (res', some e)) :
    (pos &&& POS_SELF ≠ 0 ∧ rec v (ptr ++ "/" ++ kw) res = some (res', some e)) ∨
    (∃ arr t0, pos &&& POS_ITEM ≠ 0 ∧ v = JsonValue.arr arr ∧
      loopItems rec arr 0 (ptr ++ "/" ++ kw) t0 = some (res', some e)) ∨
    (∃ props t0, pos &&& POS_PROP ≠ 0 ∧ v = JsonValue.obj props ∧
      loopProps rec props (ptr ++ "/" ++ kw) t0 = some (res', some e)) := by
  unfold processKw at h
  rcases resSeq_err_iff.mp h with h1 | ⟨m1, h1, hrest⟩
  · left
    revert h1
    split
    · intro h1
      exact ⟨by assumption, h1⟩
    · intro h1
      simp at h1
  · rcases resSeq_err_iff.mp hrest with h2 | ⟨m2, h2, h3⟩
    · right
      left
      revert h2
      split
      · split
        · intro h2
          rename_i harr
          exact ⟨_, m1, by assumption, rfl, h2⟩
        · intro h2
          simp at h2
      · intro h2
        simp at h2
    · right
      right
      revert h3
      split
      · split
        · intro h3
          exact ⟨_, m2, by assumption, rfl, h3⟩
        · intro h3
          simp at h3
      · intro h3
        simp at h3

/-- A keyword-loop failure comes from the processing of some listed keyword
present on the node, and is returned unchanged. -/
theorem loopKws_err_at {rec : JsonValue → String → ResList → CollectRes} :
    ∀ (kws : List (String × Nat)) (obj : List (String × JsonValue)) (ptr : String)
      (res res' : ResList) (e : String),
      loopKws rec kws obj ptr res = some (res', some e) →
      ∃ kw pos v t0, (kw, pos) ∈ kws ∧ assocLookup obj kw = some v ∧
        processKw rec kw pos v ptr t0 = some (res', some e) := by
  intro kws
  induction kws with
  | nil =>
    intro obj ptr res res' e h
    simp [loopKws] at h
  | cons kp rest ih =>
    intro obj ptr res res' e h
    obtain ⟨kw0, pos0⟩ := kp
    simp only [loopKws] at h
    cases hl : assocLookup obj kw0 with
    | none =>
      rw [hl] at h
      obtain ⟨kw, pos, v, t0, hmem, hv, hp⟩ := ih obj ptr res res' e h
      exact ⟨kw, pos, v, t0, List.mem_cons_of_mem _ hmem, hv, hp⟩
    | some v0 =>
      rw [hl] at h
      rcases resSeq_err_iff.mp h with herr | ⟨m, hok, htail⟩
      · exact ⟨kw0, pos0, v0, res, List.mem_cons_self _ _, hl, herr⟩
      · obtain ⟨kw, pos, v, t0, hmem, hv, hp⟩ := ih obj ptr m res' e htail
        exact ⟨kw, pos, v, t0, List.mem_cons_of_mem _ hmem, hv, hp⟩

theorem stepChild_self_intro {d : Draft} {obj : List (String × JsonValue)} {kw : String}
    {pos : Nat} {c : JsonValue} (hps : assocLookup d.subschemas kw = some pos)
    (hflag : pos &&& POS_SELF ≠ 0) (hval : assocLookup obj kw = some c) :
    stepChild d (JsonValue.obj obj) (PathStep.self kw) = some c := by
  simp [stepChild, hps, hflag, hval]

theorem stepChild_item_intro {d : Draft} {obj : List (String × JsonValue)} {kw : String}
    {pos : Nat} {arr : List JsonValue} {j : Nat} {c : JsonValue}
    (hps : assocLookup d.subschemas kw = some pos) (hflag : pos &&& POS_ITEM ≠ 0)
    (hval : assocLookup obj kw = some (JsonValue.arr arr)) (hget : arr.get? j = some c) :
    stepChild d (JsonValue.obj obj) (PathStep.item kw j) = some c := by
  simp only [stepChild, hps, hflag, hval, if_pos hflag]
  exact hget

theorem stepChild_prop_intro {d : Draft} {obj : List (String × JsonValue)} {kw name : String}
    {pos : Nat} {props : List (String × JsonValue)} {c : JsonValue}
    (hps : assocLookup d.subschemas kw = some pos) (hflag : pos &&& POS_PROP ≠ 0)
    (hval : assocLookup obj kw = some (JsonValue.obj props))
    (hget : assocLookup props name = some c) :
    stepChild d (JsonValue.obj obj) (PathStep.prop kw name) = some c := by
  simp [stepChild, hps, hflag, hval, hget]

theorem nodeAt_cons {d : Draft} {json c : JsonValue} {st : PathStep} {rest : List PathStep}
    (hsc : stepChild d json st = some c) :
    nodeAt d json (st :: rest) = nodeAt d c rest := by
  simp only [nodeAt, hsc]

theorem baseAt_cons {d : Draft} {json c : JsonValue} {base b1 : Url} {st : PathStep}
    {rest : List PathStep} (heb : effBase d json base = some b1)
    (hsc : stepChild d json st = some c) :
    baseAt d json base (st :: rest) = baseAt d c b1 rest := by
  simp only [baseAt, heb, hsc]

theorem wfJson_obj_nodup {fields : List (String × JsonValue)}
    (h : WfJson (JsonValue.obj fields)) : (fields.map Prod.fst).Nodup := by
  cases h
  assumption

theorem wfJson_obj_val {fields : List (String × JsonValue)} {k : String} {v : JsonValue}
    (h : WfJson (JsonValue.obj fields)) (hv : (k, v) ∈ fields) : WfJson v := by
  cases h with
  | obj _ hnd hall => exact hall (k, v) hv

theorem wfJson_lookup {fields : List (String × JsonValue)} {k : String} {v : JsonValue}
    (h : WfJson (JsonValue.obj fields)) (hl : assocLookup fields k = some v) : WfJson v :=
  wfJson_obj_val h (assocLookup_mem hl)

theorem wfJson_arr_elem {items : List JsonValue} {j : Nat} {v : JsonValue}
    (h : WfJson (JsonValue.arr items)) (hv : items.get? j = some v) : WfJson v := by
  cases h with
  | arr _ hall => exact hall v (List.get?_mem hv)

/-- Locating an error raised inside the keyword loop of an object node, given
the located errors of the recursive calls. -/
theorem collect_err_branch (d : Draft) (hnd : (d.subschemas.map Prod.fst).Nodup)
    (fuel : Nat) (obj : List (String × JsonValue)) (base b1 : Url) (ptr : String)
    (res0 res' : ResList) (p : String)
    (hwf : WfJson (JsonValue.obj obj))
    (ih : ∀ (json : JsonValue) (base : Url) (ptr : String) (res res' : ResList) (p : String),
      WfJson json →
      collect_resources d fuel json base ptr res = some (res', some p) →
      ∃ path node idstr bb,
        nodeAt d json path = some node ∧ idOf d node = some idstr ∧
        baseAt d json base path = some bb ∧ urlJoin bb (splitRef idstr).1 = none ∧
        p = ptrOfPath ptr path)
    (heb : effBase d (JsonValue.obj obj) base = some b1)
    (hlk : loopKws (fun v pp r => collect_resources d fuel v b1 pp r) d.subschemas obj ptr
      res0 = some (res', some p)) :
    ∃ path node idstr bb,
      nodeAt d (JsonValue.obj obj) path = some node ∧ idOf d node = some idstr ∧
      baseAt d (JsonValue.obj obj) base path = some bb ∧
      urlJoin bb (splitRef idstr).1 = none ∧ p = ptrOfPath ptr path := by
  obtain ⟨kw, pos, v, t0, hmem, hv, hp⟩ := loopKws_err_at d.subschemas obj ptr res0 res' p hlk
  have hps : assocLookup d.subschemas kw = some pos := assocLookup_of_nodup_mem hnd hmem
  have hwfv : WfJson v := wfJson_lookup hwf hv
  rcases processKw_err_cases hp with ⟨hflag, hcall⟩ | ⟨arr, t1, hflag, hveq, hli⟩ |
    ⟨props, t1, hflag, hveq, hlp⟩
  · obtain ⟨path1, node, idstr, bb, hn, hid, hb, hj2, hpe⟩ :=
      ih v b1 (ptr ++ "/" ++ kw) t0 res' p hwfv hcall
    have hsc : stepChild d (JsonValue.obj obj) (PathStep.self kw) = some v :=
      stepChild_self_intro hps hflag hv
    refine ⟨PathStep.self kw :: path1, node, idstr, bb, ?_, hid, ?_, hj2, ?_⟩
    · rw [nodeAt_cons hsc]
      exact hn
    · rw [baseAt_cons heb hsc]
      exact hb
    · rw [ptrOfPath_cons, hpe]
      simp [stepPtr, str_append_assoc]
  · subst hveq
    obtain ⟨j, elem, t2, hget, hcall⟩ := loopItems_err_at arr 0 (ptr ++ "/" ++ kw) t1 res' p hli
    rw [Nat.zero_add] at hcall
    obtain ⟨path1, node, idstr, bb, hn, hid, hb, hj2, hpe⟩ :=
      ih elem b1 (ptr ++ "/" ++ kw ++ "/" ++ natToDec j) t2 res' p
        (wfJson_arr_elem hwfv hget) hcall
    have hsc : stepChild d (JsonValue.obj obj) (PathStep.item kw j) = some elem :=
      stepChild_item_intro hps hflag hv hget
    refine ⟨PathStep.item kw j :: path1, node, idstr, bb, ?_, hid, ?_, hj2, ?_⟩
    · rw [nodeAt_cons hsc]
      exact hn
    · rw [baseAt_cons heb hsc]
      exact hb
    · rw [ptrOfPath_cons, hpe]
      simp [stepPtr, str_append_assoc]
  · subst hveq
    obtain ⟨name, pv, t2, hpmem, hcall⟩ := loopProps_err_at props (ptr ++ "/" ++ kw) t1 res' p hlp
    obtain ⟨path1, node, idstr, bb, hn, hid, hb, hj2, hpe⟩ :=
      ih pv b1 (ptr ++ "/" ++ kw ++ "/" ++ escape name) t2 res' p
        (wfJson_obj_val hwfv hpmem) hcall
    have hsc : stepChild d (JsonValue.obj obj) (PathStep.prop kw name) = some pv :=
      stepChild_prop_intro hps hflag hv
        (assocLookup_of_nodup_mem (wfJson_obj_nodup hwfv) hpmem)
    refine ⟨PathStep.prop kw name :: path1, node, idstr, bb, ?_, hid, ?_, hj2, ?_⟩
    · rw [nodeAt_cons hsc]
      exact hn
    · rw [baseAt_cons heb hsc]
      exact hb
    · rw [ptrOfPath_cons, hpe]
      simp [stepPtr, str_append_assoc]

/-- The error-location lemma: a failing collection returns the JSON Pointer
of a reachable node whose identifier does not resolve against the
spec-level base of its path. -/
theorem collect_err_locates (d : Draft) (hnd : (d.subschemas.map Prod.fst).Nodup) :
    ∀ (fuel : Nat) (json : JsonValue) (base : Url) (ptr : String) (res res' : ResList)
      (p : String), WfJson json →
      collect_resources d fuel json base ptr res = some (res', some p) →
      ∃ path node idstr bb,
        nodeAt d json path = some node ∧ idOf d node = some idstr ∧
        baseAt d json base path = some bb ∧ urlJoin bb (splitRef idstr).1 = none ∧
        p = ptrOfPath ptr path := by
  intro fuel
  induction fuel with
  | zero =>
    intro json base ptr res res' p hwf hc
    simp [collect_resources] at hc
  | succ fuel ih =>
    intro json base ptr res res' p hwf hc
    cases json with
    | obj obj =>
      cases hio : idOf d (JsonValue.obj obj) with
      | some s =>
        rw [collect_obj_id_some hio] at hc
        cases hj : urlJoin base (splitRef s).1 with
        | none =>
          rw [hj] at hc
          simp only [Option.some.injEq, Prod.mk.injEq] at hc
          obtain ⟨hres, hpe⟩ := hc
          refine ⟨[], JsonValue.obj obj, s, base, rfl, hio, rfl, hj, ?_⟩
          simpa [ptrOfPath] using hpe.symm
        | some b1 =>
          rw [hj] at hc
          refine collect_err_branch d hnd fuel obj base b1 ptr _ res' p hwf ih ?_ hc
          rw [effBase_some_id hio]
          exact hj
      | none =>
        rw [collect_obj_id_none hio] at hc
        exact collect_err_branch d hnd fuel obj base base ptr _ res' p hwf ih
          (effBase_none_id hio) hc
    | null => simp [collect_resources] at hc
    | bool b => simp [collect_resources] at hc
    | num n => simp [collect_resources] at hc
    | str s => simp [collect_resources] at hc
    | arr a => simp [collect_resources] at hc

/-- An items-loop failure is unaffected by any elements after the failing
one: they are never traversed and the returned map and pointer are
unchanged. -/
theorem loopItems_err_frozen {rec : JsonValue → String → ResList → CollectRes} :
    ∀ (arr : List JsonValue) (i0 : Nat) (pk : String) (res res' : ResList) (e : String)
      (post : List JsonValue),
      loopItems rec arr i0 pk res = some (res', some e) →
      loopItems rec (arr ++ post) i0 pk res = some (res', some e) := by
  intro arr
  induction arr with
  | nil =>
    intro i0 pk res res' e post h
    simp [loopItems] at h
  | cons v rest ih =>
    intro i0 pk res res' e post h
    simp only [loopItems] at h
    rw [List.cons_append]
    simp only [loopItems]
    rcases resSeq_err_iff.mp h with herr | ⟨m, hok, htail⟩
    · exact resSeq_err_iff.mpr (Or.inl herr)
    · exact resSeq_err_iff.mpr (Or.inr ⟨m, hok, ih (i0 + 1) pk m res' e post htail⟩)

/-- A props-loop failure is unaffected by any properties after the failing
one. -/
theorem loopProps_err_frozen {rec : JsonValue → String → ResList → CollectRes} :
    ∀ (props : List (String × JsonValue)) (pk : String) (res res' : ResList) (e : String)
      (post : List (String × JsonValue)),
      loopProps rec props pk res = some (res', some e) →
      loopProps rec (props ++ post) pk res = some (res', some e) := by
  intro props
  induction props with
  | nil =>
    intro pk res res' e post h
    simp [loopProps] at h
  | cons nv rest ih =>
    intro pk res res' e post h
    obtain ⟨name0, v0⟩ := nv
    simp only [loopProps] at h
    rw [List.cons_append]
    simp only [loopProps]
    rcases resSeq_err_iff.mp h with herr | ⟨m, hok, htail⟩
    · exact resSeq_err_iff.mpr (Or.inl herr)
    · exact resSeq_err_iff.mpr (Or.inr ⟨m, hok, ih pk m res' e post htail⟩)

/-- A keyword-loop failure is unaffected by any table keywords after the
failing one. -/
theorem loopKws_err_frozen {rec : JsonValue → String → ResList → CollectRes} :
    ∀ (kws : List (String × Nat)) (obj : List (String × JsonValue)) (ptr : String)
      (res res' : ResList) (e : String) (post : List (String × Nat)),
      loopKws rec kws obj ptr res = some (res', some e) →
      loopKws rec (kws ++ post) obj ptr res = some (res', some e) := by
  intro kws
  induction kws with
  | nil =>
    intro obj ptr res res' e post h
    simp [loopKws] at h
  | cons kp rest ih =>
    intro obj ptr res res' e post h
    obtain ⟨kw0, pos0⟩ := kp
    simp only [loopKws] at h
    rw [List.cons_append]
    simp only [loopKws]
    cases hl : assocLookup obj kw0 with
    | none =>
      rw [hl] at h
      exact ih obj ptr res res' e post h
    | some v0 =>
      rw [hl] at h
      rcases resSeq_err_iff.mp h with herr | ⟨m, hok, htail⟩
      · exact resSeq_err_iff.mpr (Or.inl herr)
      · exact resSeq_err_iff.mpr (Or.inr ⟨m, hok, ih obj ptr m res' e post htail⟩)

theorem ptrOfPath_append_one (ptr : String) (path : List PathStep) (st : PathStep) :
    ptrOfPath ptr (path ++ [st]) = ptrOfPath ptr path ++ stepPtr st := by
  simp [ptrOfPath, List.foldl_append]

theorem anchorKwMatches_iff {fields : List (String × JsonValue)} {kw anchor : String} :
    anchorKwMatches fields kw anchor = true ↔
      assocLookup fields kw = some (JsonValue.str anchor) := by
  unfold anchorKwMatches
  cases h : assocLookup fields kw with
  | none => simp
  | some w => cases w <;> simp

theorem has_anchor_tail_ok_iff {d : Draft} {fields : List (String × JsonValue)}
    {anchor : String} (hv : 2019 ≤ d.version) :
    has_anchor_tail d fields anchor = Except.ok true ↔
      (assocLookup fields "$anchor" = some (JsonValue.str anchor) ∨
       assocLookup fields "$dynamicAnchor" = some (JsonValue.str anchor)) := by
  unfold has_anchor_tail
  by_cases hA : anchorKwMatches fields "$anchor" anchor = true
  · rw [if_pos ⟨hv, hA⟩]
    simp [anchorKwMatches_iff.mp hA]
  · rw [if_neg (fun hc => hA hc.2)]
    by_cases hB : anchorKwMatches fields "$dynamicAnchor" anchor = true
    · rw [if_pos ⟨hv, hB⟩]
      simp [anchorKwMatches_iff.mp hB]
    · rw [if_neg (fun hc => hB hc.2)]
      constructor
      · intro h
        exact absurd h (by simp)
      · intro h
        rcases h with h | h
        · exact absurd (anchorKwMatches_iff.mpr h) hA
        · exact absurd (anchorKwMatches_iff.mpr h) hB

theorem has_anchor_tail_low {d : Draft} {fields : List (String × JsonValue)}
    {anchor : String} (hv : d.version < 2019) :
    has_anchor_tail d fields anchor = Except.ok false := by
  unfold has_anchor_tail
  rw [if_neg (fun hc => absurd hc.1 (by omega)), if_neg (fun hc => absurd hc.1 (by omega))]

/-- C1: for every schema document, dialect and absolute initial base URI, a
nested node whose identifier-keyword value resolves is recorded by
`collect_resources` at its JSON Pointer with the reference resolved (per
RFC-3986) against the base of its path — `baseAt`, the resolved identifier
of the nearest enclosing node that declared one, or the initial base URI if
none did — not against the document's original base; in particular, in the
worked example with root identifier `http://a.com/schemas/schema.json`, the
child at `/definitions/s2` with identifier `../s2` is recorded as
`http://a.com/s2`. -/
theorem c1_nearest_ancestor_base :
    (∀ (fuel : Nat) (d : Draft) (json : JsonValue) (base : Url) (ptr : String)
       (res res' : ResList) (path : List PathStep) (node : JsonValue) (idstr : String)
       (bb u : Url),
       collect_resources d fuel json base ptr res = some (res', none) →
       nodeAt d json path = some node →
       idOf d node = some idstr →
       baseAt d json base path = some bb →
       urlJoin bb (splitRef idstr).1 = some u →
       (ptrOfPath ptr path, ({ id := u } : Resource)) ∈ res') ∧
    collect_resources draft4 20 testDoc testBase "" [] = some (testExpected, none) ∧
    ("/definitions/s2", ({ id := urlOf "a.com" "/s2" } : Resource)) ∈ testExpected ∧
    (urlOf "a.com" "/s2").toStr = "http://a.com/s2" := by
  refine ⟨?_, by rfl, by decide, by rfl⟩
  intro fuel d json base ptr res res' path node idstr bb u hc hn hid hb hj
  exact collect_records_at_path d fuel json base ptr res res' path node idstr bb u
    hc hn hid hb hj

theorem c1_witness :
    (ptrOfPath "" [PathStep.prop "definitions" "s2"],
      ({ id := urlOf "a.com" "/s2" } : Resource)) ∈ testExpected :=
  c1_nearest_ancestor_base.1 20 draft4 testDoc testBase "" [] testExpected
    [PathStep.prop "definitions" "s2"]
    (JsonValue.obj [
      ("id", JsonValue.str "../s2"),
      ("items", JsonValue.arr [
        JsonValue.obj [("id", JsonValue.str "http://c.com/item")],
        JsonValue.obj [("id", JsonValue.str "http://d.com/item")]])])
    "../s2" (urlOf "a.com" "/schemas/schema.json") (urlOf "a.com" "/s2")
    (by rfl) (by rfl) (by rfl) (by rfl) (by rfl)

/-- C4: a node whose identifier-keyword string value contains a fragment is
recorded with the fragment removed: the value is split into (pre-fragment,
fragment) and only the pre-fragment part is resolved and stored; in the
concrete example, identifier `http://e.com/def#abcd` is recorded as
`http://e.com/def` and that fragment-free URI is the base for the children
(a nested identifier `x` resolves to `http://e.com/x`). -/
theorem c4_fragment_stripping :
    (∀ (fuel : Nat) (d : Draft) (json : JsonValue) (base : Url) (ptr : String)
       (res res' : ResList) (path : List PathStep) (node : JsonValue)
       (idstr pre frag : String) (bb u : Url),
       collect_resources d fuel json base ptr res = some (res', none) →
       nodeAt d json path = some node →
       idOf d node = some idstr →
       splitRef idstr = (pre, frag) →
       frag ≠ "" →
       baseAt d json base path = some bb →
       urlJoin bb pre = some u →
       (ptrOfPath ptr path, ({ id := u } : Resource)) ∈ res') ∧
    collect_resources draft4 5 fragDoc testBase "" [] =
      some ([("", { id := urlOf "e.com" "/def" }),
             ("/items", { id := urlOf "e.com" "/x" })], none) ∧
    (urlOf "e.com" "/def").toStr = "http://e.com/def" := by
  refine ⟨?_, by rfl, by rfl⟩
  intro fuel d json base ptr res res' path node idstr pre frag bb u hc hn hid hsp hf hb hj
  have hpre : pre = (splitRef idstr).1 := by rw [hsp]
  subst hpre
  exact collect_records_at_path d fuel json base ptr res res' path node idstr bb u
    hc hn hid hb hj

theorem c4_witness :
    (ptrOfPath "" [], ({ id := urlOf "e.com" "/def" } : Resource)) ∈
      ([("", { id := urlOf "e.com" "/def" }),
        ("/items", { id := urlOf "e.com" "/x" })] : ResList) :=
  c4_fragment_stripping.1 5 draft4 fragDoc testBase "" []
    [("", { id := urlOf "e.com" "/def" }), ("/items", { id := urlOf "e.com" "/x" })]
    [] fragDoc "http://e.com/def#abcd" "http://e.com/def" "abcd" testBase
    (urlOf "e.com" "/def") (by rfl) (by rfl) (by rfl) (by rfl) (by decide) (by rfl) (by rfl)

/-- C5: child pointers are built as specified — an ITEM-ARRAY element `i`
of keyword `kw` is recorded under `current/kw/i` (decimal index), a
PROPERTY-MAP property `name` under `current/kw/escaped-name` with `~`
becoming `~0` and `/` becoming `~1` (so a property `a/b` yields the segment
`a~1b`), and a SELF keyword under `current/kw`. -/
theorem c5_child_pointers :
    (∀ (fuel : Nat) (d : Draft) (json : JsonValue) (base : Url) (ptr : String)
       (res res' : ResList) (path : List PathStep) (kw : String) (i : Nat)
       (node : JsonValue) (idstr : String) (bb u : Url),
       collect_resources d fuel json base ptr res = some (res', none) →
       nodeAt d json (path ++ [PathStep.item kw i]) = some node →
       idOf d node = some idstr →
       baseAt d json base (path ++ [PathStep.item kw i]) = some bb →
       urlJoin bb (splitRef idstr).1 = some u →
       (ptrOfPath ptr path ++ "/" ++ kw ++ "/" ++ natToDec i,
         ({ id := u } : Resource)) ∈ res') ∧
    (∀ (fuel : Nat) (d : Draft) (json : JsonValue) (base : Url) (ptr : String)
       (res res' : ResList) (path : List PathStep) (kw name : String)
       (node : JsonValue) (idstr : String) (bb u : Url),
       collect_resources d fuel json base ptr res = some (res', none) →
       nodeAt d json (path ++ [PathStep.prop kw name]) = some node →
       idOf d node = some idstr →
       baseAt d json base (path ++ [PathStep.prop kw name]) = some bb →
       urlJoin bb (splitRef idstr).1 = some u →
       (ptrOfPath ptr path ++ "/" ++ kw ++ "/" ++ escape name,
         ({ id := u } : Resource)) ∈ res') ∧
    (∀ (fuel : Nat) (d : Draft) (json : JsonValue) (base : Url) (ptr : String)
       (res res' : ResList) (path : List PathStep) (kw : String)
       (node : JsonValue) (idstr : String) (bb u : Url),
       collect_resources d fuel json base ptr res = some (res', none) →
       nodeAt d json (path ++ [PathStep.self kw]) = some node →
       idOf d node = some idstr →
       baseAt d json base (path ++ [PathStep.self kw]) = some bb →
       urlJoin bb (splitRef idstr).1 = some u →
       (ptrOfPath ptr path ++ "/" ++ kw, ({ id := u } : Resource)) ∈ res') ∧
    escape "a/b" = "a~1b" ∧
    (∀ c : Char, escape (String.mk [c]) =
      if c = '~' then "~0" else if c = '/' then "~1" else String.mk [c]) := by
  refine ⟨?_, ?_, ?_, by rfl, ?_⟩
  · intro fuel d json base ptr res res' path kw i node idstr bb u hc hn hid hb hj
    have hmem := collect_records_at_path d fuel json base ptr res res'
      (path ++ [PathStep.item kw i]) node idstr bb u hc hn hid hb hj
    rw [ptrOfPath_append_one] at hmem
    simpa [stepPtr, str_append_assoc] using hmem
  · intro fuel d json base ptr res res' path kw name node idstr bb u hc hn hid hb hj
    have hmem := collect_records_at_path d fuel json base ptr res res'
      (path ++ [PathStep.prop kw name]) node idstr bb u hc hn hid hb hj
    rw [ptrOfPath_append_one] at hmem
    simpa [stepPtr, str_append_assoc] using hmem
  · intro fuel d json base ptr res res' path kw node idstr bb u hc hn hid hb hj
    have hmem := collect_records_at_path d fuel json base ptr res res'
      (path ++ [PathStep.self kw]) node idstr bb u hc hn hid hb hj
    rw [ptrOfPath_append_one] at hmem
    simpa [stepPtr, str_append_assoc] using hmem
  · intro c
    by_cases h1 : c = '~'
    · subst h1
      rfl
    · by_cases h2 : c = '/'
      · subst h2
        rfl
      · simp [escape, h1, h2]

theorem c5_witness :
    (ptrOfPath "" [PathStep.prop "definitions" "s2"] ++ "/" ++ "items" ++ "/" ++ natToDec 1,
      ({ id := urlOf "d.com" "/item" } : Resource)) ∈ testExpected :=
  c5_child_pointers.1 20 draft4 testDoc testBase "" [] testExpected
    [PathStep.prop "definitions" "s2"] "items" 1
    (JsonValue.obj [("id", JsonValue.str "http://d.com/item")])
    "http://d.com/item" (urlOf "a.com" "/s2") (urlOf "d.com" "/item")
    (by rfl) (by rfl) (by rfl) (by rfl) (by rfl)

/-- C10: `collect_resources` only ever inserts into the supplied map and
never removes an entry: in the insertion-sequence model, whatever the
outcome (success or failure), the final map is the initial map with zero or
more entries appended, so every entry present at the start of a call is
still present, under the same key, when the call returns. -/
theorem c10_map_only_grows :
    ∀ (d : Draft) (fuel : Nat) (json : JsonValue) (base : Url) (ptr : String)
      (res : ResList) (out : ResList × Option String),
      collect_resources d fuel json base ptr res = some out →
      ∃ ex, out.1 = res ++ ex :=
  fun d fuel json base ptr res out h => collect_grows d fuel json base ptr res out h

theorem c10_witness :
    ∃ ex, ([("/pre", ({ id := testBase } : Resource))] : ResList) =
      [("/pre", ({ id := testBase } : Resource))] ++ ex :=
  c10_map_only_grows draft4 5 errDoc testBase ""
    [("/pre", { id := testBase })] ([("/pre", { id := testBase })], some "") (by rfl)

/-- C2 counterexample: `"json-schema.org/schema#"` carries an empty fragment
and its claim-described preprocessing yields the canonical latest string,
yet `from_url` rejects it (the trailing `#` is never removed before
matching); conversely `"http://https://json-schema.org/schema"` is accepted
although stripping a single leading scheme leaves a non-canonical string
(the two scheme prefixes are stripped in sequence). -/
theorem c2_counterexample :
    claim_pre_transform "json-schema.org/schema#" = some "json-schema.org/schema" ∧
    from_url "json-schema.org/schema" = some latest ∧
    from_url "json-schema.org/schema#" = none ∧
    claim_pre_transform "http://https://json-schema.org/schema" =
      some "https://json-schema.org/schema" ∧
    from_url "http://https://json-schema.org/schema" = some latest :=
  ⟨by rfl, by rfl, by rfl, by rfl, by rfl⟩

/-- C2 (amended): `from_url` succeeds exactly on inputs with an empty
fragment whose full string (including any trailing `#`), after stripping a
leading `http://` and then additionally a leading `https://`, percent-decodes
to one of the six canonical strings, mapped as listed with
`json-schema.org/schema` an alias for the highest-ordinal 2020 dialect. -/
theorem c2_from_url_amended :
    (from_url "json-schema.org/schema" = some latest ∧ latest = draft2020 ∧
     latest.version = 2020 ∧
     from_url "json-schema.org/draft/2020-12/schema" = some draft2020 ∧
     from_url "json-schema.org/draft/2019-09/schema" = some draft2019 ∧
     from_url "json-schema.org/draft-07/schema" = some draft7 ∧
     from_url "json-schema.org/draft-06/schema" = some draft6 ∧
     from_url "json-schema.org/draft-04/schema" = some draft4 ∧
     from_url "http://json-schema.org/draft/2020-12/schema" = some draft2020 ∧
     from_url "https://json-schema.org/draft/2020-12/schema" = some draft2020 ∧
     from_url "https://json-schema.org/%64raft/2020-12/schema" = some draft2020 ∧
     draft2019.version = 2019 ∧ draft7.version = 7 ∧ draft6.version = 6 ∧
     draft4.version = 4) ∧
    (∀ url : String, (splitRef url).2 ≠ "" → from_url url = none) ∧
    (∀ (url : String) (d : Draft), from_url url = some d →
       (splitRef url).2 = "" ∧
       ∃ u, path_unescape (stripSchemes url) = some u ∧
         ((u = "json-schema.org/schema" ∧ d = latest) ∨
          (u = "json-schema.org/draft/2020-12/schema" ∧ d = draft2020) ∨
          (u = "json-schema.org/draft/2019-09/schema" ∧ d = draft2019) ∨
          (u = "json-schema.org/draft-07/schema" ∧ d = draft7) ∨
          (u = "json-schema.org/draft-06/schema" ∧ d = draft6) ∨
          (u = "json-schema.org/draft-04/schema" ∧ d = draft4))) := by
  refine ⟨⟨by rfl, by rfl, by rfl, by rfl, by rfl, by rfl, by rfl, by rfl, by rfl,
    by rfl, by rfl, by rfl, by rfl, by rfl, by rfl⟩, ?_, ?_⟩
  · intro url h
    simp [from_url, h]
  · intro url d h
    unfold from_url at h
    split at h
    · exact absurd h (by simp)
    · rename_i hf
      refine ⟨not_not.mp hf, ?_⟩
      cases hu : path_unescape (stripSchemes url) with
      | none =>
        rw [hu] at h
        exact absurd h (by simp)
      | some u =>
        rw [hu] at h
        replace h : matchDialect u = some d := h
        refine ⟨u, rfl, ?_⟩
        unfold matchDialect at h
        split_ifs at h with h1 h2 h3 h4 h5 h6
        · exact Or.inl ⟨h1, (Option.some.injEq .. ▸ h).symm⟩
        · exact Or.inr (Or.inl ⟨h2, (Option.some.injEq .. ▸ h).symm⟩)
        · exact Or.inr (Or.inr (Or.inl ⟨h3, (Option.some.injEq .. ▸ h).symm⟩))
        · exact Or.inr (Or.inr (Or.inr (Or.inl ⟨h4, (Option.some.injEq .. ▸ h).symm⟩)))
        · exact Or.inr (Or.inr (Or.inr (Or.inr (Or.inl
            ⟨h5, (Option.some.injEq .. ▸ h).symm⟩))))
        · exact Or.inr (Or.inr (Or.inr (Or.inr (Or.inr
            ⟨h6, (Option.some.injEq .. ▸ h).symm⟩))))

theorem c2_witness : from_url "http://json-schema.org/schema#frag" = none :=
  c2_from_url_amended.2.1 "http://json-schema.org/schema#frag" (by decide)

/-- C3 counterexample: the boolean document `true` collects successfully
(under the 2020 dialect, which allows boolean schemas) into an empty map, so
no entry keyed by the empty string exists. -/
theorem c3_counterexample :
    ¬ ∃ res', collect_resources draft2020 5 (JsonValue.bool true) testBase "" [] =
        some (res', none) ∧ ∃ r, ("", r) ∈ res' := by
  rintro ⟨res', hc, r, hmem⟩
  rw [show collect_resources draft2020 5 (JsonValue.bool true) testBase "" [] =
      some ([], none) from rfl] at hc
  injection hc with hc
  have hres : res' = ([] : ResList) := ((Prod.mk.injEq .. ).mp hc).1.symm
  subst hres
  simp at hmem

/-- C3 (amended): for every JSON OBJECT document and every dialect, a
successful top-level `collect_resources` call (initial pointer the empty
string) records an entry keyed by the empty string; non-object documents
return success with no root entry. -/
theorem c3_root_in_map_amended :
    ∀ (fuel : Nat) (d : Draft) (fields : List (String × JsonValue)) (base : Url)
      (res res' : ResList),
      collect_resources d fuel (JsonValue.obj fields) base "" res = some (res', none) →
      ∃ r, ("", r) ∈ res' := by
  intro fuel d fields base res res' hc
  cases fuel with
  | zero => simp [collect_resources] at hc
  | succ fuel =>
    cases hio : idOf d (JsonValue.obj fields) with
    | some s =>
      rw [collect_obj_id_some hio] at hc
      cases hj : urlJoin base (splitRef s).1 with
      | none =>
        rw [hj] at hc
        simp at hc
      | some u =>
        rw [hj] at hc
        refine ⟨{ id := u }, ?_⟩
        have hmem : ("", ({ id := u } : Resource)) ∈ insertRes res "" { id := u } := by
          simp [insertRes]
        exact mem_of_grows (loopKws_grows
          (fun v p r out h => collect_grows d fuel v u p r out h)
          d.subschemas fields "" _ (res', none) hc) hmem
    | none =>
      rw [collect_obj_id_none hio, if_pos rfl] at hc
      refine ⟨{ id := base }, ?_⟩
      have hmem : ("", ({ id := base } : Resource)) ∈ insertRes res "" { id := base } := by
        simp [insertRes]
      exact mem_of_grows (loopKws_grows
        (fun v p r out h => collect_grows d fuel v base p r out h)
        d.subschemas fields "" _ (res', none) hc) hmem

theorem c3_witness :
    ∃ r, ("", r) ∈ ([("", ({ id := testBase } : Resource))] : ResList) :=
  c3_root_in_map_amended 1 draft4 [] testBase [] [("", { id := testBase })] (by rfl)

/-- C6: a failing `collect_resources` returns a failure carrying exactly the
JSON Pointer of a reachable node whose identifier-keyword value fails
RFC-3986 resolution against the base of its path, and the traversal stops at
the first failure: array elements, object properties and table keywords
after the failing one are never traversed and contribute no further map
entries (appending them leaves the returned map and pointer unchanged). -/
theorem c6_error_first_failure :
    (∀ (fuel : Nat) (d : Draft) (json : JsonValue) (base : Url) (ptr : String)
       (res res' : ResList) (p : String),
       (d.subschemas.map Prod.fst).Nodup → WfJson json →
       collect_resources d fuel json base ptr res = some (res', some p) →
       ∃ path node idstr bb,
         nodeAt d json path = some node ∧ idOf d node = some idstr ∧
         baseAt d json base path = some bb ∧ urlJoin bb (splitRef idstr).1 = none ∧
         p = ptrOfPath ptr path) ∧
    (∀ (rec : JsonValue → String → ResList → CollectRes) (arr : List JsonValue)
       (i0 : Nat) (pk : String) (res res' : ResList) (e : String)
       (post : List JsonValue),
       loopItems rec arr i0 pk res = some (res', some e) →
       loopItems rec (arr ++ post) i0 pk res = some (res', some e)) ∧
    (∀ (rec : JsonValue → String → ResList → CollectRes)
       (props : List (String × JsonValue)) (pk : String) (res res' : ResList)
       (e : String) (post : List (String × JsonValue)),
       loopProps rec props pk res = some (res', some e) →
       loopProps rec (props ++ post) pk res = some (res', some e)) ∧
    (∀ (rec : JsonValue → String → ResList → CollectRes) (kws : List (String × Nat))
       (obj : List (String × JsonValue)) (ptr : String) (res res' : ResList)
       (e : String) (post : List (String × Nat)),
       loopKws rec kws obj ptr res = some (res', some e) →
       loopKws rec (kws ++ post) obj ptr res = some (res', some e)) := by
  refine ⟨?_, ?_, ?_, ?_⟩
  · intro fuel d json base ptr res res' p hnd hwf hc
    exact collect_err_locates d hnd fuel json base ptr res res' p hwf hc
  · intro rec arr i0 pk res res' e post h
    exact loopItems_err_frozen arr i0 pk res res' e post h
  · intro rec props pk res res' e post h
    exact loopProps_err_frozen props pk res res' e post h
  · intro rec kws obj ptr res res' e post h
    exact loopKws_err_frozen kws obj ptr res res' e post h

theorem c6_witness :
    ∃ path node idstr bb,
      nodeAt draft4 errDoc path = some node ∧ idOf draft4 node = some idstr ∧
      baseAt draft4 errDoc testBase path = some bb ∧
      urlJoin bb (splitRef idstr).1 = none ∧ "" = ptrOfPath "" path :=
  c6_error_first_failure.1 5 draft4 errDoc testBase "" [] [] "" (by decide)
    (by
      refine WfJson.obj _ (by simp) ?_
      intro kv h
      simp only [List.mem_singleton] at h
      rw [h]
      exact WfJson.str _)
    (by rfl)

/-- C7: between any earlier and any later dialect, every keyword of the
earlier table is present in the later table with the same or a superset of
its position flags. -/
theorem c7_table_monotonicity :
    ∀ d1 ∈ allDrafts, ∀ d2 ∈ allDrafts, d1.version < d2.version →
      ∀ p ∈ d1.subschemas, ∃ q ∈ d2.subschemas, q.1 = p.1 ∧ p.2 &&& q.2 = p.2 := by
  decide

theorem c7_witness :
    ∃ q ∈ draft2020.subschemas, q.1 = "items" ∧
      (POS_SELF ||| POS_ITEM) &&& q.2 = POS_SELF ||| POS_ITEM :=
  c7_table_monotonicity draft4 (by decide) draft2020 (by decide) (by decide)
    ("items", POS_SELF ||| POS_ITEM) (by decide)

/-- C8: for dialects with version 2019 or later, `has_anchor` on an object
node answers true exactly when the node has a string-valued `$anchor` equal
to the requested name or a string-valued `$dynamicAnchor` equal to it (the
two checked independently); for pre-2019 dialects the anchor is the
percent-decoded fragment of the identifier keyword's string value, and a
node with no identifier property answers false. -/
theorem c8_anchor_rules :
    (∀ (d : Draft) (fields : List (String × JsonValue)) (anchor : String),
       2019 ≤ d.version →
       (has_anchor d (JsonValue.obj fields) anchor = Except.ok true ↔
         (assocLookup fields "$anchor" = some (JsonValue.str anchor) ∨
          assocLookup fields "$dynamicAnchor" = some (JsonValue.str anchor)))) ∧
    (∀ (d : Draft) (fields : List (String × JsonValue)) (anchor : String),
       d.version < 2019 → assocLookup fields d.id = none →
       has_anchor d (JsonValue.obj fields) anchor = Except.ok false) ∧
    (∀ (d : Draft) (fields : List (String × JsonValue)) (anchor s a : String),
       d.version < 2019 → assocLookup fields d.id = some (JsonValue.str s) →
       fragment_to_anchor (splitRef s).2 = Except.ok (some a) →
       has_anchor d (JsonValue.obj fields) anchor = Except.ok (a == anchor)) := by
  refine ⟨?_, ?_, ?_⟩
  · intro d fields anchor hv
    have hlt : ¬ d.version < 2019 := by omega
    simp only [has_anchor, if_neg hlt]
    exact has_anchor_tail_ok_iff hv
  · intro d fields anchor hv hl
    simp only [has_anchor, if_pos hv, hl]
    exact has_anchor_tail_low hv
  · intro d fields anchor s a hv hl hfa
    simp only [has_anchor, if_pos hv, hl, hfa]

theorem c8_witness :
    (has_anchor draft2020 (JsonValue.obj [("$anchor", JsonValue.str "abc")]) "abc" =
      Except.ok true ↔
      (assocLookup [("$anchor", JsonValue.str "abc")] "$anchor" =
        some (JsonValue.str "abc") ∨
       assocLookup [("$anchor", JsonValue.str "abc")] "$dynamicAnchor" =
        some (JsonValue.str "abc"))) ∧
    has_anchor draft4 (JsonValue.obj [("id", JsonValue.str "x#abc")]) "abc" =
      Except.ok ("abc" == "abc") :=
  ⟨c8_anchor_rules.1 draft2020 [("$anchor", JsonValue.str "abc")] "abc" (by decide),
   c8_anchor_rules.2.2 draft4 [("id", JsonValue.str "x#abc")] "abc" "x#abc" "abc"
     (by decide) (by rfl) (by rfl)⟩

/-- C9: for a pre-2019 dialect, when the identifier keyword's string value
has a fragment that is not valid percent-encoded UTF-8, `has_anchor` returns
the decoding failure to the caller instead of answering false; the fragment
`%FF` is such a failure. -/
theorem c9_anchor_decode_error :
    (∀ (d : Draft) (fields : List (String × JsonValue)) (anchor s : String),
       d.version < 2019 → assocLookup fields d.id = some (JsonValue.str s) →
       fragment_to_anchor (splitRef s).2 = Except.error () →
       has_anchor d (JsonValue.obj fields) anchor = Except.error ()) ∧
    fragment_to_anchor "%FF" = Except.error () := by
  refine ⟨?_, by rfl⟩
  intro d fields anchor s hv hl hfa
  simp only [has_anchor, if_pos hv, hl, hfa]

theorem c9_witness :
    has_anchor draft4 (JsonValue.obj [("id", JsonValue.str "x#%FF")]) "a" =
      Except.error () :=
  c9_anchor_decode_error.1 draft4 [("id", JsonValue.str "x#%FF")] "a" "x#%FF"
    (by decide) (by rfl) (by rfl)
